import Mathlib

/-!
Shallow embedding of `src/transcendental.rs` from substrate-fixed.

A fixed-point value of a signed format with `F` fractional bits is modelled by
its raw bit pattern, an integer (`Int`, or `Nat` on code paths where the Rust
value is provably non-negative).  The real value is `bits / 2^F`.  The generic
functions of the source are parameterised by the source fractional width `Fs`,
the destination fractional width `Fd` and the destination total bit width `W`.

Arithmetic follows the two's-complement semantics of the fixed-point
collaborator crate (the spec's §6 interface; that crate's code is not under
`src/`, so its operations are modelled from the spec):
  * `a >> i` is an arithmetic shift, i.e. floor division by `2^i`;
  * fixed-point multiplication keeps the high part of the double-width
    product, i.e. floor division of the product by `2^F`;
  * fixed-point division computes `(a * 2^F) / b` with Rust integer division
    (truncation toward zero);
  * checked operations fail on division by zero or when the result leaves the
    signed `W`-bit range.
-/

namespace STF

/-- Outcome of a Rust function returning `Result<D, ()>`: `Ok`, `Err(())`, or a
crash of the whole call (a reached `unwrap()` of `None`). -/
inductive RRes (α : Type) where
  | ok (v : α) : RRes α
  | err : RRes α
  | crash : RRes α
deriving DecidableEq, Repr

/-- Modelled from the spec (§6): the signed `W`-bit range of a destination
format's backing integer. -/
def inRangeS (W : Nat) (v : Int) : Prop := -(2 ^ (W - 1)) ≤ v ∧ v < 2 ^ (W - 1)

instance (W : Nat) (v : Int) : Decidable (inRangeS W v) := by
  unfold inRangeS; infer_instance

/-- Modelled from the spec (§6): fixed-point division `(a << F) / b` with
truncation toward zero, on raw bits. -/
def fxDivZ (F : Nat) (a b : Int) : Int := Int.tdiv (a * 2 ^ F) b

/-- Modelled from the spec (§6): fixed-point multiplication, the double-width
product arithmetically shifted right by `F`.  `2^F > 0`, so Euclidean division
agrees with the floor division performed by the shift. -/
def fxMulZ (F : Nat) (a b : Int) : Int := a * b / 2 ^ F

/-- Arithmetic shift right by `i` on raw bits (floor division; the divisor is
positive so `/` on `Int` computes exactly that). -/
def sar (a : Int) (i : Nat) : Int := a / 2 ^ i

/-- Fixed-point division on non-negative bits (`Nat`): truncation and floor
coincide. -/
def fxDivN (F a b : Nat) : Nat := a * 2 ^ F / b

/-- Fixed-point multiplication on non-negative bits. -/
def fxMulN (F a b : Nat) : Nat := a * b / 2 ^ F

/-- Modelled from the spec (§6): `checked_div` on non-negative bits — `None` on
division by zero or when the quotient leaves the signed `W`-bit range. -/
def checkedDivN (F W a b : Nat) : Option Nat :=
  if b = 0 then none
  else
    let q := a * 2 ^ F / b
    if q < 2 ^ (W - 1) then some q else none

/-- Modelled from the spec (§6): `checked_mul` on non-negative bits. -/
def checkedMulN (F W a b : Nat) : Option Nat :=
  let p := a * b / 2 ^ F
  if p < 2 ^ (W - 1) then some p else none

/-- Modelled from the spec (§6): `checked_add` on non-negative bits. -/
def checkedAddN (W a b : Nat) : Option Nat :=
  if a + b < 2 ^ (W - 1) then some (a + b) else none

/-- Modelled from the spec (§6): `checked_mul` on signed bits. -/
def checkedMulZ (F : Nat) (W : Nat) (a b : Int) : Option Int :=
  let p := a * b / 2 ^ F
  if -(2 ^ (W - 1)) ≤ p ∧ p < 2 ^ (W - 1) then some p else none

/-! ## Constants

The `I9F23` constants of the source.  `consts::PI`, `consts::LOG2_E` and
`consts::E` live in a module of this repository that is not under `src/`;
modelled from the spec, they are the 128-bit fixed-point representations of
π, log₂ e and e, so after the source's right shifts the `I9F23` bit patterns
below are `⌊c · 2^23⌋` (the discarded low bits cannot influence the kept ones).
-/

/-- zero, `I9F23` bits. -/
def ZERO : Int := 0

/-- one, `I9F23` bits (`1 << 23`). -/
def ONE : Int := 8388608

/-- two, `I9F23` bits. -/
def TWO : Int := 16777216

/-- three, `I9F23` bits. -/
def THREE : Int := 25165824

/-- Modelled from the spec: 2π as `I9F23` bits, `⌊2π · 2^23⌋`. -/
def TWO_PI : Int := 52707178

/-- Modelled from the spec: π as `I9F23` bits, `⌊π · 2^23⌋`. -/
def PI : Int := 26353589

/-- Modelled from the spec: π/2 as `I9F23` bits, `⌊π/2 · 2^23⌋`. -/
def FRAC_PI_2 : Int := 13176794

/-- Modelled from the spec: π/4 as `I9F23` bits, `⌊π/4 · 2^23⌋`. -/
def FRAC_PI_4 : Int := 6588397

/-- Modelled from the spec: log₂ e as `I9F23` bits, `⌊log₂ e · 2^23⌋`. -/
def LOG2_E : Int := 12102203

/-- Modelled from the spec: e as `I9F23` bits, `⌊e · 2^23⌋`. -/
def E : Int := 22802601

/-- `D::from(LOG2_E)` for a destination with `Fd ≥ 23` fractional bits:
lossless widening multiplies the bits by `2^(Fd-23)`. -/
def log2eBits (Fd : Nat) : Int := LOG2_E * 2 ^ (Fd - 23)

/-- `D::from(E)` for a destination with `Fd ≥ 23` fractional bits. -/
def eBits (Fd : Nat) : Nat := 22802601 * 2 ^ (Fd - 23)

/-! ## `rs`: right-shift with rounding -/

/-- `rs` from the source on non-negative bits: `(operand >> 1) + (operand & lsb)`
where `lsb` has raw bits 1, i.e. `x / 2 + x % 2`. -/
def rsN (x : Nat) : Nat := x / 2 + x % 2

/-! ## Square root

`sqrt` never produces a negative intermediate value (the operand is checked
non-negative, and sums/quotients of non-negative values stay non-negative), so
its core is embedded over `Nat`, where Rust's truncating division is `Nat.div`.
-/

/-- One Newton iteration of the source: `l = (l + operand / l) / 2`, on raw
bits (the divisor 2 has raw bits `2 * 2^F`). -/
def newtonStep (F p l : Nat) : Nat := fxDivN F (l + fxDivN F p l) (2 * 2 ^ F)

/-- `n` Newton iterations, also returning the list of divisors used by the
in-loop division `operand / l`. -/
def newtonLoop (F p l : Nat) : Nat → Nat × List Nat
  | 0 => (l, [])
  | n + 1 =>
    let r := newtonLoop F p (newtonStep F p l) n
    (r.1, l :: r.2)

/-- The body of `sqrt` after the sign check, on the non-negative destination
bits `p0` (the source's mutable `operand` after `D::from`).  Output: the
result, the number of Newton iterations executed, and the divisors used inside
the Newton loop. -/
def sqrtN (Fd W p0 : Nat) : RRes Int × Nat × List Nat :=
  if p0 = 0 ∨ p0 = 2 ^ Fd then (.ok (p0 : Int), 0, [])
  else
    let invert := p0 < 2 ^ Fd
    match (if invert then checkedDivN Fd W (2 ^ Fd) p0 else some p0) with
    | none => (.err, 0, [])
    | some p =>
      let l0 := fxDivN Fd p (2 * 2 ^ Fd) + 2 ^ Fd
      let r := newtonLoop Fd p l0 Fd
      if invert then
        match checkedDivN Fd W (2 ^ Fd) r.1 with
        | none => (.err, Fd, r.2)
        | some v => (.ok (v : Int), Fd, r.2)
      else (.ok (r.1 : Int), Fd, r.2)

/-- `sqrt` of the source.  Input: raw bits of the operand in the source format
`Fs` (an `Int`); the conversion `D::from` is the lossless widening by
`2^(Fd-Fs)`. -/
def sqrtM (Fs Fd W : Nat) (x : Int) : RRes Int × Nat × List Nat :=
  if x < 0 then (.err, 0, [])
  else sqrtN Fd W (x.toNat * 2 ^ (Fd - Fs))

/-! ## Base-2 logarithm -/

/-- The `while x >= TWO` halving loop of `log2_inner`, with fuel (the source
loop terminates because `rs` shrinks its argument; the callers below always
supply enough fuel, which the termination theorem proves).  Returns the final
`x`, the accumulated integer part (raw accumulator bits, `lsb = 1`), and the
number of iterations executed. -/
def halveLoop (F : Nat) : Nat → Nat → Nat → Nat × Nat × Nat
  | 0, x, acc => (x, acc, 0)
  | fuel + 1, x, acc =>
    if 2 * 2 ^ F ≤ x then
      let r := halveLoop F fuel (rsN x) (acc + 1)
      (r.1, r.2.1, r.2.2 + 1)
    else (x, acc, 0)

/-- One iteration of the fractional-bit refinement loop of `log2_inner`:
`x *= x; result <<= lsb; if x >= TWO { result |= lsb; x = rs(x) }`. -/
def fracStep (F : Nat) (s : Nat × Nat) : Nat × Nat :=
  let x := fxMulN F s.1 s.1
  let r := 2 * s.2
  if 2 * 2 ^ F ≤ x then (rsN x, r ||| 1) else (x, r)

/-- `log2_inner` of the source on non-negative bits `x` (callers guarantee the
value is ≥ 1).  Fuel for the halving loop is the caller's word width `W`.
Returns the result bits and the iteration counts of the two loops. -/
def log2innerM (F W x : Nat) : Int × Nat × Nat :=
  let h := halveLoop F W x 0
  if h.1 = 2 ^ F then ((h.2.1 * 2 ^ F : Nat), h.2.2, 0)
  else
    let f := (List.range F).foldl (fun s _ => fracStep F s) (h.1, h.2.1)
    ((f.2 : Nat), h.2.2, F)

/-- `log2` of the source.  The reciprocal for arguments below one uses
`checked_div(..).unwrap()`: a `None` there crashes the call instead of
returning `Err`. -/
def log2M (Fs Fd W : Nat) (x : Int) : RRes Int × Nat × Nat :=
  if x ≤ 0 then (.err, 0, 0)
  else
    let xd : Nat := x.toNat * 2 ^ (Fd - Fs)
    if xd < 2 ^ Fd then
      match checkedDivN Fd W (2 ^ Fd) xd with
      | none => (.crash, 0, 0)
      | some inv =>
        let r := log2innerM Fd W inv
        (.ok (-r.1), r.2.1, r.2.2)
    else
      let r := log2innerM Fd W xd
      (.ok r.1, r.2.1, r.2.2)

/-- `ln` of the source: `log2(x)? / D::from(LOG2_E)` (a plain, unchecked
fixed-point division). -/
def lnM (Fs Fd W : Nat) (x : Int) : RRes Int :=
  match (log2M Fs Fd W x).1 with
  | .ok l => .ok (fxDivZ Fd l (log2eBits Fd))
  | .err => .err
  | .crash => .crash

/-! ## Exponential -/

/-- The Rust range `2..F` as a list. -/
def rustRange2 (F : Nat) : List Nat := (List.range (F - 2)).map (· + 2)

/-- One iteration of `exp`'s Taylor loop: `term = term * operand / i` and
`result += term`, all checked. -/
def expStep (Fd W xa : Nat) (i : Nat) (st : Option (Nat × Nat)) :
    Option (Nat × Nat) :=
  match st with
  | none => none
  | some rt =>
    match checkedMulN Fd W rt.2 xa with
    | none => none
    | some t1 =>
      match checkedDivN Fd W t1 (i * 2 ^ Fd) with
      | none => none
      | some t2 =>
        match checkedAddN W rt.1 t2 with
        | none => none
        | some r2 => some (r2, t2)

/-- One fold transition of `exp`'s loop, threading the iteration counter (the
Rust loop aborts on the iteration where a checked operation fails, so a
`none` state passes through unchanged and uncounted). -/
def expFoldStep (Fd W xa : Nat) (s : Option (Nat × Nat) × Nat) (i : Nat) :
    Option (Nat × Nat) × Nat :=
  match s.1 with
  | none => s
  | some rt => (expStep Fd W xa i (some rt), s.2 + 1)

/-- The tail of `exp` after the Taylor loop: a failed loop is `Err`; for
negative operands the reciprocal is taken with `checked_div`. -/
def expTail (Fd W : Nat) (x : Int) (c : Nat) :
    Option (Nat × Nat) → RRes Int × Nat
  | none => (.err, c)
  | some rt =>
    if x < 0 then
      match checkedDivN Fd W (2 ^ Fd) rt.1 with
      | none => (.err, c)
      | some v => (.ok (v : Int), c)
    else (.ok (rt.1 : Int), c)

/-- `exp` of the source.  Returns the result together with the number of
Taylor-loop iterations entered. -/
def expM (Fs Fd W : Nat) (x : Int) : RRes Int × Nat :=
  if x = 0 then (.ok ((2 ^ Fd : Nat) : Int), 0)
  else if x = 2 ^ Fs then (.ok ((eBits Fd : Nat) : Int), 0)
  else
    let xa : Nat := x.natAbs * 2 ^ (Fd - Fs)
    let fin := (rustRange2 Fd).foldl (expFoldStep Fd W xa)
      (some (xa + 2 ^ Fd, xa), 0)
    expTail Fd W x fin.2 fin.1

/-! ## Power -/

/-- `pow` of the source.  The second component instruments the final
`overflowing_to_num::<D>` narrowing: `none` when that conversion is never
reached, otherwise `some flag`.  The conversion goes from `D` to `D` itself;
modelled from the spec (§6), a conversion overflows exactly when the value
does not fit the destination's signed `W`-bit range. -/
def powM (Fs Fd W : Nat) (base ex : Int) : RRes Int × Option Bool :=
  if ex = 0 then (.ok (base * 2 ^ (Fd - Fs)), none)
  else if ex < 0 then (.ok 0, none)
  else
    match lnM Fs Fd W base with
    | .err => (.err, none)
    | .crash => (.crash, none)
    | .ok l =>
      match checkedMulZ Fd W l (ex * 2 ^ (Fd - Fs)) with
      | none => (.err, none)
      | some r =>
        match (expM Fd Fd W r).1 with
        | .err => (.err, none)
        | .crash => (.crash, none)
        | .ok v =>
          if inRangeS W v then (.ok v, some false) else (.err, some true)

/-! ## CORDIC -/

/-- The `arctan(2^-i)` lookup table of the source, 32 `U0F128` bit patterns. -/
def ARCTAN_ANGLES : List Nat :=
  [0xC90FDAA22168C0000000000000000000,
   0x76B19C1586ED3C000000000000000000,
   0x3EB6EBF25901BA000000000000000000,
   0x1FD5BA9AAC2F6E000000000000000000,
   0x0FFAADDB967EF5000000000000000000,
   0x07FF556EEA5D89400000000000000000,
   0x03FFEAAB776E53600000000000000000,
   0x01FFFD555BBBA9700000000000000000,
   0x00FFFFAAAADDDDB80000000000000000,
   0x007FFFF55556EEF00000000000000000,
   0x003FFFFEAAAAB7780000000000000000,
   0x001FFFFFD55555BC0000000000000000,
   0x000FFFFFFAAAAAAE0000000000000000,
   0x0007FFFFFF5555558000000000000000,
   0x0003FFFFFFEAAAAAA000000000000000,
   0x0001FFFFFFFD55555000000000000000,
   0x0000FFFFFFFFAAAAA800000000000000,
   0x00007FFFFFFFF5555400000000000000,
   0x00003FFFFFFFFEAAAA00000000000000,
   0x00001FFFFFFFFFD55500000000000000,
   0x00000FFFFFFFFFFAAA80000000000000,
   0x000007FFFFFFFFFF5540000000000000,
   0x000003FFFFFFFFFFEAA0000000000000,
   0x000001FFFFFFFFFFFD50000000000000,
   0x000000FFFFFFFFFFFFA8000000000000,
   0x0000007FFFFFFFFFFFF4000000000000,
   0x0000003FFFFFFFFFFFFE000000000000,
   0x00000020000000000000000000000000,
   0x00000010000000000000000000000000,
   0x00000008000000000000000000000000,
   0x00000004000000000000000000000000,
   0x00000002000000000000000000000000]

/-- `I9F23::lossy_from` on a `U0F128` bit pattern: keep the top 23 bits. -/
def lossyToI9F23 (u : Nat) : Int := ((u >>> 105 : Nat) : Int)

/-- The source's CORDIC loop over `ARCTAN_ANGLES.iter().zip(0..)` (here: the
enumerated table, pairs `(i, entry)`), with the `i >= 24` break.  Also counts
the loop bodies that run to completion. -/
def cordicAux : List (Nat × Nat) → Int → Int → Int → (Int × Int) × Nat
  | [], x, y, _ => ((x, y), 0)
  | (i, u) :: rest, x, y, z =>
    let angle := lossyToI9F23 u
    if 24 ≤ i then ((x, y), 0)
    else
      let next :=
        if z < 0 then cordicAux rest (x + sar y i) (y - sar x i) (z + angle)
        else cordicAux rest (x - sar y i) (y + sar x i) (z - angle)
      (next.1, next.2 + 1)

/-- `cordic_rotation` of the source. -/
def cordic_rotation (x y z : Int) : Int × Int :=
  (cordicAux ARCTAN_ANGLES.enum x y z).1

/-- Plain runner for a list of `(angle bits, shift index)` pairs, keeping the
residual angle.  `cordic_rotation` is proved equal to this runner on the first
24 converted table entries. -/
def run3 : List (Int × Nat) → Int → Int → Int → Int × Int × Int
  | [], x, y, z => (x, y, z)
  | (a, i) :: rest, x, y, z =>
    if z < 0 then run3 rest (x + sar y i) (y - sar x i) (z + a)
    else run3 rest (x - sar y i) (y + sar x i) (z - a)

/-- The first 24 table entries, converted to `I9F23` and paired with their
shift index — the angles the rotation actually uses. -/
def pairs24 : List (Int × Nat) :=
  [(6588397, 0), (3889358, 1), (2055029, 2), (1043165, 3), (523606, 4),
   (262058, 5), (131061, 6), (65534, 7), (32767, 8), (16383, 9), (8191, 10),
   (4095, 11), (2047, 12), (1023, 13), (511, 14), (255, 15), (127, 16),
   (63, 17), (31, 18), (15, 19), (7, 20), (3, 21), (1, 22), (0, 23)]

/-! ## sine, cosine, tangent -/

/-- Fuel for the wraparound loops of `sin`; enough for any angle the other
functions can feed them (the termination theorem quantifies the bound). -/
def sinFuel : Nat := 200

/-- The `while angle > PI { angle -= TWO_PI }` loop, with fuel; also counts
iterations. -/
def wrapDown : Nat → Int → Int × Nat
  | 0, a => (a, 0)
  | fuel + 1, a =>
    if PI < a then
      let r := wrapDown fuel (a - TWO_PI)
      (r.1, r.2 + 1)
    else (a, 0)

/-- The `while angle < -PI { angle += TWO_PI }` loop, with fuel. -/
def wrapUp : Nat → Int → Int × Nat
  | 0, a => (a, 0)
  | fuel + 1, a =>
    if a < -PI then
      let r := wrapUp fuel (a + TWO_PI)
      (r.1, r.2 + 1)
    else (a, 0)

/-- The wraparound and mirroring of `sin`: reduce into `[-π, π]`, then mirror
into `[-π/2, π/2]`. -/
def reduceM (a : Int) : Int :=
  let a1 := (wrapDown sinFuel a).1
  let a2 := (wrapUp sinFuel a1).1
  let a3 := if FRAC_PI_2 < a2 then FRAC_PI_2 - (a2 - FRAC_PI_2) else a2
  if a3 < -FRAC_PI_2 then -FRAC_PI_2 - (a3 + FRAC_PI_2) else a3

/-- The reciprocal-gain seed `I9F23::from_bits(0x004DBA75)` of `sin`. -/
def X0 : Int := 5094005

/-- `sin` of the source (raw `I9F23` bits in radians). -/
def sinM (a : Int) : Int := (cordic_rotation X0 0 (reduceM a)).2

/-- `cos` of the source: `sin(angle + FRAC_PI_2)`. -/
def cosM (a : Int) : Int := sinM (a + FRAC_PI_2)

/-- `tan` of the source: `angle *= TWO; sin(angle) / (ONE + cos(angle))`. -/
def tanM (a : Int) : Int :=
  let a2 := fxMulZ 23 a TWO
  fxDivZ 23 (sinM a2) (ONE + cosM a2)

/-- The divisor of `tan`'s division, on raw bits. -/
def tanDenom (a : Int) : Int := ONE + cosM (fxMulZ 23 a TWO)

/-- `asin` of the source: the identity stub. -/
def asinM (a : Int) : Int := a

/-! ## Certified interval checker for the CORDIC output

`checkY` certifies that no rotation input `z` in `[zlo, zhi]` with
`z ≡ off (mod 2)` can produce the final `y` bit pattern `yBad = -2^23`
(which is the only way `tan`'s divisor `ONE + cos(..)` could vanish).
It walks the rotation; while an interval's residual angles share a sign the
rotation state is a single concrete pair `(x, y)`, otherwise the interval is
split.  `devBound` bounds how far the remaining iterations can still move `y`,
which prunes intervals whose `y` can no longer reach `yBad`. -/
def yBad : Int := -8388608

/-- Bound on `|final y - y|` (and step by step on `|x|`, `|y|`) over the
remaining iterations, given bounds `X ≥ |x|`, `Y ≥ |y|`. -/
def devBound : List (Int × Nat) → Int → Int → Int
  | [], _, _ => 0
  | (_, i) :: rest, X, Y =>
    sar X i + 1 + devBound rest (X + (sar Y i + 1)) (Y + (sar X i + 1))

/-- The interval checker (see module comment above). -/
def checkY : Nat → List (Int × Nat) → Int → Int → Int → Int → Int → Bool
  | 0, _, _, _, _, _, _ => false
  | fuel + 1, l, x, y, zlo, zhi, off =>
    let s := devBound l |x| |y|
    if yBad + s < y ∨ y + s < yBad then true
    else
      match l with
      | [] =>
        if y ≠ yBad then true
        else if zhi < zlo then true
        else decide (zlo = zhi) && decide (¬(2 ∣ zlo - off))
      | (a, i) :: rest =>
        if zhi < 0 then
          checkY fuel rest (x + sar y i) (y - sar x i) (zlo + a) (zhi + a)
            (off + a)
        else if 0 ≤ zlo then
          checkY fuel rest (x - sar y i) (y + sar x i) (zlo - a) (zhi - a)
            (off - a)
        else
          checkY fuel l x y zlo (-1) off && checkY fuel l x y 0 zhi off

end STF

namespace STF

/-- The error-bound recursion tracking the Newton loop on operand 4. -/
def ebnd (B : Nat) : Nat → Nat → Nat
  | E, 0 => E
  | E, n + 1 => ebnd B (E ^ 2 / (4 * B)) n

/-- The power contract as the claims state it: `exponent = 0` returns the
base unchanged (converted), negative exponents return zero, and otherwise
`exp(exponent * ln(base))` with the domain error propagated from `ln`, the
intermediate multiplication, or `exp`.  (No final narrowing failure: the
claims say the error can only originate in those three places.) -/
def powSpec (Fs Fd W : Nat) (base ex : Int) : RRes Int :=
  if ex = 0 then .ok (base * 2 ^ (Fd - Fs))
  else if ex < 0 then .ok 0
  else
    match lnM Fs Fd W base with
    | .err => .err
    | .crash => .crash
    | .ok l =>
      match checkedMulZ Fd W l (ex * 2 ^ (Fd - Fs)) with
      | none => .err
      | some r => (expM Fd Fd W r).1

/-- The converted angle the rotation uses at step `i`, as the spec describes
the table lookup. -/
def angleAt (i : Nat) : Int := lossyToI9F23 (ARCTAN_ANGLES.getD i 0)

/-- One step of the CORDIC recurrence exactly as the spec states it:
if `z < 0` then `x += y>>i; y -= x_prev>>i; z += angle_i`, else
`x -= y>>i; y += x_prev>>i; z -= angle_i`. -/
def cordicSpecStep (i : Nat) (s : Int × Int × Int) : Int × Int × Int :=
  if s.2.2 < 0 then (s.1 + sar s.2.1 i, s.2.1 - sar s.1 i, s.2.2 + angleAt i)
  else (s.1 - sar s.2.1 i, s.2.1 + sar s.1 i, s.2.2 - angleAt i)

/-- The rotation as the spec states it: the recurrence for `i = 0..23`,
hard-capped at 24 iterations. -/
def cordicSpec (x y z : Int) : Int × Int :=
  let f := (List.range 24).foldl (fun s i => cordicSpecStep i s) (x, y, z)
  (f.1, f.2.1)

/-- The angle/index pair list built from the first `n` spec-side lookups. -/
def pairsList (n : Nat) : List (Int × Nat) :=
  (List.range n).map (fun i => (angleAt i, i))

/-! ## Arithmetic helper lemmas -/

theorem fxDivN_two (F s : Nat) : fxDivN F s (2 * 2 ^ F) = s / 2 := by
  unfold fxDivN
  rw [Nat.mul_comm 2 (2 ^ F), Nat.mul_comm s (2 ^ F),
    Nat.mul_div_mul_left _ _ (Nat.pos_pow_of_pos F (by norm_num))]

theorem newtonStep_eq (F p l : Nat) :
    newtonStep F p l = (l + p * 2 ^ F / l) / 2 := by
  unfold newtonStep
  rw [fxDivN_two]
  rfl

/-! ## Newton iteration: the divisor never vanishes -/

theorem amgm_aux (s l : Nat) (hl : l ≤ s) : (s - l) * l * 4 ≤ s * s := by
  have hsub : (s - l) + l = s := Nat.sub_add_cancel hl
  have hsq : 2 * (s - l) * l ≤ (s - l) ^ 2 + l ^ 2 :=
    two_mul_le_add_sq _ _
  have hexp : s * s = (s - l) ^ 2 + 2 * ((s - l) * l) + l ^ 2 := by
    conv_lhs => rw [← hsub]
    ring
  linarith

theorem newtonStep_ge (F p l : Nat) (hp : 2 ^ F + 1 ≤ p) (hl : 1 ≤ l) :
    2 ^ F ≤ newtonStep F p l := by
  set B := 2 ^ F with hB
  rw [newtonStep_eq]
  have h2 : 2 * B ≤ l + p * B / l := by
    by_cases hcase : l ≤ 2 * B
    · have hq : 2 * B - l ≤ p * B / l := by
        rw [Nat.le_div_iff_mul_le hl]
        have h4 : (2 * B - l) * l * 4 ≤ (2 * B) * (2 * B) := amgm_aux _ _ hcase
        have h4' : (2 * B) * (2 * B) = (B * B) * 4 := by ring
        have h5 : (2 * B - l) * l * 4 ≤ (B * B) * 4 := by linarith
        have hBB : (2 * B - l) * l ≤ B * B :=
          Nat.le_of_mul_le_mul_right h5 (by norm_num)
        calc (2 * B - l) * l ≤ B * B := hBB
          _ ≤ p * B := by
              have hBp : B ≤ p := le_trans (Nat.le_add_right _ _) hp
              exact Nat.mul_le_mul_right _ hBp
      have hadd : (2 * B - l) + l ≤ p * B / l + l := Nat.add_le_add_right hq l
      omega
    · have : l ≤ l + p * B / l := Nat.le_add_right _ _
      omega
  calc B = 2 * B / 2 := by omega
    _ ≤ (l + p * B / l) / 2 := Nat.div_le_div_right h2

theorem newtonLoop_divisor_ne_zero (F p : Nat) (hp : 2 ^ F + 1 ≤ p) :
    ∀ n l, 1 ≤ l → ∀ d ∈ (newtonLoop F p l n).2, d ≠ 0 := by
  intro n
  induction n with
  | zero => intro l _ d hd; simp [newtonLoop] at hd
  | succ n ih =>
    intro l hl d hd
    simp only [newtonLoop, List.mem_cons] at hd
    rcases hd with h | h
    · omega
    · exact ih (newtonStep F p l)
        (le_trans (Nat.one_le_two_pow) (newtonStep_ge F p l hp hl)) d h

/-! ## Newton iteration on operand 4: exact convergence to 2 -/

theorem newton4_lower (F l : Nat) (hl : 2 * 2 ^ F ≤ l) :
    2 * 2 ^ F ≤ newtonStep F (4 * 2 ^ F) l := by
  set B := 2 ^ F with hB
  rw [newtonStep_eq]
  have hBpos : 0 < B := pow_pos (by norm_num) F
  have hlpos : 1 ≤ l := by omega
  have h2 : 4 * B ≤ l + 4 * B * B / l := by
    by_cases hcase : l ≤ 4 * B
    · have hq : 4 * B - l ≤ 4 * B * B / l := by
        rw [Nat.le_div_iff_mul_le hlpos]
        have h4 : (4 * B - l) * l * 4 ≤ (4 * B) * (4 * B) := amgm_aux _ _ hcase
        have h4' : (4 * B) * (4 * B) = (4 * B * B) * 4 := by ring
        have h5 : (4 * B - l) * l * 4 ≤ (4 * B * B) * 4 := by linarith
        exact Nat.le_of_mul_le_mul_right h5 (by norm_num)
      have hadd : (4 * B - l) + l ≤ 4 * B * B / l + l := Nat.add_le_add_right hq l
      omega
    · have : l ≤ l + 4 * B * B / l := Nat.le_add_right _ _
      omega
  calc 2 * B = 4 * B / 2 := by omega
    _ ≤ (l + 4 * B * B / l) / 2 := Nat.div_le_div_right h2

theorem newton4_upper (F l e : Nat) (hl : l = 2 * 2 ^ F + e) :
    newtonStep F (4 * 2 ^ F) l ≤ 2 * 2 ^ F + e ^ 2 / (4 * 2 ^ F) := by
  set B := 2 ^ F with hB
  have hBpos : 0 < B := Nat.pos_pow_of_pos F (by norm_num)
  set d := e ^ 2 / (4 * B) with hd
  rw [newtonStep_eq]
  have hlpos : 0 < l := by omega
  set q := 4 * B * B / l with hq
  have hql : q * l ≤ 4 * B * B := Nat.div_mul_le_self _ _
  have hesq : e ^ 2 < 4 * B * (d + 1) := by
    have hdm : 4 * B * d + e ^ 2 % (4 * B) = e ^ 2 := by
      rw [hd]; exact Nat.div_add_mod _ _
    have hm : e ^ 2 % (4 * B) < 4 * B := Nat.mod_lt _ (by omega)
    have hexp : 4 * B * (d + 1) = 4 * B * d + 4 * B := by ring
    linarith
  have htarget : e ^ 2 < l * (2 * d + 2) := by
    have h4B : 4 * B ≤ 2 * l := by omega
    calc e ^ 2 < 4 * B * (d + 1) := hesq
      _ ≤ 2 * l * (d + 1) := Nat.mul_le_mul_right _ h4B
      _ = l * (2 * d + 2) := by ring
  have hident : l * l + 4 * B * B = 4 * B * l + e ^ 2 := by
    subst hl; ring
  have hkey : l * (l + q) < l * (4 * B + 2 * d + 2) := by
    calc l * (l + q) = l * l + q * l := by ring
      _ ≤ l * l + 4 * B * B := Nat.add_le_add_left hql _
      _ = 4 * B * l + e ^ 2 := hident
      _ < 4 * B * l + l * (2 * d + 2) := Nat.add_lt_add_left htarget _
      _ = l * (4 * B + 2 * d + 2) := by ring
  have hlin : l + q ≤ 4 * B + 2 * d + 1 :=
    Nat.lt_succ_iff.mp (Nat.lt_of_mul_lt_mul_left hkey)
  calc (l + q) / 2 ≤ (4 * B + 2 * d + 1) / 2 := Nat.div_le_div_right hlin
    _ = 2 * B + d := by omega

theorem ebnd_mono (B : Nat) :
    ∀ n E E', E ≤ E' → ebnd B E n ≤ ebnd B E' n := by
  intro n
  induction n with
  | zero => intro E E' h; simpa [ebnd] using h
  | succ n ih =>
    intro E E' h
    simp only [ebnd]
    exact ih _ _ (Nat.div_le_div_right (Nat.pow_le_pow_left h 2))

theorem newtonLoop4_bounds (F : Nat) :
    ∀ n l E, 2 * 2 ^ F ≤ l → l ≤ 2 * 2 ^ F + E →
      2 * 2 ^ F ≤ (newtonLoop F (4 * 2 ^ F) l n).1 ∧
      (newtonLoop F (4 * 2 ^ F) l n).1 ≤ 2 * 2 ^ F + ebnd (2 ^ F) E n := by
  intro n
  induction n with
  | zero => intro l E h1 h2; exact ⟨h1, by simpa [newtonLoop, ebnd] using h2⟩
  | succ n ih =>
    intro l E h1 h2
    simp only [newtonLoop, ebnd]
    have hstep1 : 2 * 2 ^ F ≤ newtonStep F (4 * 2 ^ F) l := newton4_lower F l h1
    have he : l = 2 * 2 ^ F + (l - 2 * 2 ^ F) := by omega
    have hstep2 : newtonStep F (4 * 2 ^ F) l ≤
        2 * 2 ^ F + (l - 2 * 2 ^ F) ^ 2 / (4 * 2 ^ F) := newton4_upper F l _ he
    have hle : (l - 2 * 2 ^ F) ^ 2 / (4 * 2 ^ F) ≤ E ^ 2 / (4 * 2 ^ F) :=
      Nat.div_le_div_right (Nat.pow_le_pow_left (by omega) 2)
    obtain ⟨g1, g2⟩ := ih (newtonStep F (4 * 2 ^ F) l) (E ^ 2 / (4 * 2 ^ F))
      hstep1 (le_trans hstep2 (by omega))
    exact ⟨g1, g2⟩

theorem div_sq_le (B m E : Nat) (h : E ≤ B / 2 ^ m) :
    E ^ 2 ≤ B * B / (2 ^ m * 2 ^ m) := by
  have h1 : E * (2 ^ m) ≤ B := le_trans
    (Nat.mul_le_mul_right _ h) (Nat.div_mul_le_self _ _)
  have h2 : (E * 2 ^ m) * (E * 2 ^ m) ≤ B * B := Nat.mul_le_mul h1 h1
  rw [Nat.le_div_iff_mul_le (by positivity)]
  calc E ^ 2 * (2 ^ m * 2 ^ m) = (E * 2 ^ m) * (E * 2 ^ m) := by ring
    _ ≤ B * B := h2

theorem ebnd_decay (B : Nat) (hB : 0 < B) :
    ∀ n m E, E ≤ B / 2 ^ m → ebnd B E n ≤ B / 2 ^ (2 ^ n * (m + 2) - 2) := by
  intro n
  induction n with
  | zero =>
    intro m E h
    simpa [ebnd] using h
  | succ n ih =>
    intro m E h
    simp only [ebnd]
    have hstep : E ^ 2 / (4 * B) ≤ B / 2 ^ (2 * m + 2) := by
      have h1 : E ^ 2 ≤ B * B / (2 ^ m * 2 ^ m) := div_sq_le B m E h
      have h2 : E ^ 2 / (4 * B) ≤ (B * B / (2 ^ m * 2 ^ m)) / (4 * B) :=
        Nat.div_le_div_right h1
      have h3 : (B * B / (2 ^ m * 2 ^ m)) / (4 * B) =
          B * B / (B * (2 ^ m * 2 ^ m * 4)) := by
        rw [Nat.div_div_eq_div_mul]
        congr 1
        ring
      have h4 : B * B / (B * (2 ^ m * 2 ^ m * 4)) =
          B / (2 ^ m * 2 ^ m * 4) := by
        rw [Nat.mul_div_mul_left _ _ hB]
      have h5 : 2 ^ m * 2 ^ m * 4 = 2 ^ (2 * m + 2) := by
        rw [← pow_add]
        rw [pow_add]
        ring
      rw [h3, h4, h5] at h2
      exact h2
    have := ih (2 * m + 2) (E ^ 2 / (4 * B)) hstep
    have hexp : 2 ^ n * (2 * m + 2 + 2) = 2 ^ (n + 1) * (m + 2) := by
      rw [pow_succ]
      ring
    rw [hexp] at this
    exact this

theorem pow_gap (F : Nat) (hF : 1 ≤ F) : F + 3 ≤ 2 ^ (F + 1) := by
  induction F with
  | zero => omega
  | succ n ih =>
    by_cases hn : 1 ≤ n
    · have := ih hn
      have h2 : 2 ^ (n + 1 + 1) = 2 * 2 ^ (n + 1) := by rw [pow_succ]; ring
      omega
    · have hn0 : n = 0 := by omega
      subst hn0
      norm_num

theorem ebnd_zero (F : Nat) (hF : 1 ≤ F) : ebnd (2 ^ F) (2 ^ F) F = 0 := by
  have hB : 0 < 2 ^ F := pow_pos (by norm_num) F
  have h0 : (2 ^ F : Nat) ≤ 2 ^ F / 2 ^ 0 := by simp
  have h := ebnd_decay (2 ^ F) hB F 0 (2 ^ F) h0
  have hlt : (2 ^ F : Nat) < 2 ^ (2 ^ F * (0 + 2) - 2) := by
    have hgap : F + 3 ≤ 2 ^ (F + 1) := pow_gap F hF
    have hexp : 2 ^ F * (0 + 2) - 2 = 2 ^ (F + 1) - 2 := by
      rw [pow_succ]
    rw [hexp]
    exact Nat.pow_lt_pow_right (by norm_num) (by omega)
  have := Nat.div_eq_of_lt hlt
  omega

theorem newton4_final (F : Nat) (hF : 1 ≤ F) :
    (newtonLoop F (4 * 2 ^ F) (3 * 2 ^ F) F).1 = 2 * 2 ^ F := by
  have h3 : (3 : Nat) * 2 ^ F = 2 * 2 ^ F + 2 ^ F := by ring
  obtain ⟨h1, h2⟩ := newtonLoop4_bounds F F (3 * 2 ^ F) (2 ^ F)
    (by omega) (by omega)
  rw [ebnd_zero F hF] at h2
  omega

theorem checkedDivN_some (F W a b q : Nat) (h : checkedDivN F W a b = some q) :
    b ≠ 0 ∧ q = a * 2 ^ F / b := by
  unfold checkedDivN at h
  split at h
  · cases h
  · simp only at h
    split at h
    · exact ⟨by assumption, by cases h; rfl⟩
    · cases h

theorem recip_ge (F p0 q : Nat) (h1 : 1 ≤ p0) (h2 : p0 < 2 ^ F)
    (hq : q = 2 ^ F * 2 ^ F / p0) : 2 ^ F + 1 ≤ q := by
  subst hq
  rw [Nat.le_div_iff_mul_le (by omega)]
  have hB : 1 ≤ 2 ^ F := Nat.one_le_pow _ _ (by norm_num)
  have hp : p0 ≤ 2 ^ F - 1 := by omega
  calc (2 ^ F + 1) * p0 ≤ (2 ^ F + 1) * (2 ^ F - 1) := Nat.mul_le_mul_left _ hp
    _ ≤ 2 ^ F * 2 ^ F := by nlinarith [Nat.sub_add_cancel hB]

theorem sqrtN_fast_zero (Fd W : Nat) : sqrtN Fd W 0 = (.ok 0, 0, []) := by
  simp [sqrtN]

theorem sqrtN_fast_one (Fd W : Nat) :
    sqrtN Fd W (2 ^ Fd) = (.ok ((2 ^ Fd : Nat) : Int), 0, []) := by
  simp [sqrtN]

theorem sqrtN_direct (Fd W p0 : Nat) (h1 : 2 ^ Fd < p0) :
    sqrtN Fd W p0 =
      (.ok (((newtonLoop Fd p0 (p0 / 2 + 2 ^ Fd) Fd).1 : Nat) : Int), Fd,
        (newtonLoop Fd p0 (p0 / 2 + 2 ^ Fd) Fd).2) := by
  have hBpos : 0 < 2 ^ Fd := pow_pos (by norm_num) Fd
  have h0 : ¬ (p0 = 0 ∨ p0 = 2 ^ Fd) := by omega
  have hinv : ¬ (p0 < 2 ^ Fd) := by omega
  simp only [sqrtN, if_neg h0, if_neg hinv, fxDivN_two]

theorem sqrtM_neg (Fs Fd W : Nat) (x : Int) (hx : x < 0) :
    sqrtM Fs Fd W x = (.err, 0, []) := by
  unfold sqrtM
  rw [if_pos hx]

theorem sqrtM_zero (Fs Fd W : Nat) : sqrtM Fs Fd W 0 = (.ok 0, 0, []) := by
  unfold sqrtM
  norm_num [sqrtN_fast_zero]

theorem sqrtM_one (Fs Fd W : Nat) (hs : Fs ≤ Fd) :
    sqrtM Fs Fd W (((2 ^ Fs : Nat) : Int)) = (.ok ((2 ^ Fd : Nat) : Int), 0, []) := by
  have hpow : (2 ^ Fs) * 2 ^ (Fd - Fs) = 2 ^ Fd := by
    rw [← pow_add]
    congr 1
    omega
  have hnx : ¬ ((((2 ^ Fs : Nat) : Int)) < 0) := by
    have : (0:Int) ≤ ((2 ^ Fs : Nat) : Int) := Int.natCast_nonneg _
    omega
  unfold sqrtM
  rw [if_neg hnx, Int.toNat_natCast, hpow, sqrtN_fast_one]

theorem sqrtM_four (Fs Fd W : Nat) (hF : 1 ≤ Fd) (hs : Fs ≤ Fd) :
    sqrtM Fs Fd W (((4 * 2 ^ Fs : Nat) : Int)) =
      (.ok ((2 * 2 ^ Fd : Nat) : Int), Fd,
        (newtonLoop Fd (4 * 2 ^ Fd) (3 * 2 ^ Fd) Fd).2) := by
  have hp0 : ((((4 * 2 ^ Fs : Nat) : Int)).toNat) * 2 ^ (Fd - Fs) = 4 * 2 ^ Fd := by
    rw [Int.toNat_natCast, mul_assoc, ← pow_add]
    congr 2
    omega
  have hnx : ¬ ((((4 * 2 ^ Fs : Nat) : Int)) < 0) := by
    have : (0:Int) ≤ ((4 * 2 ^ Fs : Nat) : Int) := Int.natCast_nonneg _
    omega
  have hBpos : 0 < 2 ^ Fd := pow_pos (by norm_num) Fd
  have hl0 : 4 * 2 ^ Fd / 2 + 2 ^ Fd = 3 * 2 ^ Fd := by omega
  unfold sqrtM
  rw [if_neg hnx, hp0, sqrtN_direct Fd W _ (by omega), hl0, newton4_final Fd hF]

theorem sqrtN_divisors_ne_zero (Fd W p0 : Nat) :
    ∀ d ∈ (sqrtN Fd W p0).2.2, d ≠ 0 := by
  have hBpos : 0 < 2 ^ Fd := pow_pos (by norm_num) Fd
  have hone : (1:Nat) ≤ 2 ^ Fd := hBpos
  have hl0 : ∀ p : Nat, 1 ≤ fxDivN Fd p (2 * 2 ^ Fd) + 2 ^ Fd := fun p =>
    le_trans hone (Nat.le_add_left _ _)
  by_cases h0 : p0 = 0 ∨ p0 = 2 ^ Fd
  · simp [sqrtN, h0]
  · have h0' := h0
    push_neg at h0'
    obtain ⟨hne0, hneB⟩ := h0'
    have h1le : 1 ≤ p0 := Nat.one_le_iff_ne_zero.mpr hne0
    by_cases hinv : p0 < 2 ^ Fd
    · cases hcd : checkedDivN Fd W (2 ^ Fd) p0 with
      | none => simp [sqrtN, h0, hinv, hcd]
      | some p =>
        obtain ⟨hb, hq⟩ := checkedDivN_some _ _ _ _ _ hcd
        have hpge : 2 ^ Fd + 1 ≤ p := recip_ge Fd _ p h1le hinv hq
        have hdiv := newtonLoop_divisor_ne_zero Fd p hpge Fd
          (fxDivN Fd p (2 * 2 ^ Fd) + 2 ^ Fd) (hl0 p)
        cases hcd2 : checkedDivN Fd W (2 ^ Fd)
            (newtonLoop Fd p (fxDivN Fd p (2 * 2 ^ Fd) + 2 ^ Fd) Fd).1 with
        | none => simpa [sqrtN, h0, hinv, hcd, hcd2] using hdiv
        | some v => simpa [sqrtN, h0, hinv, hcd, hcd2] using hdiv
    · have hgt : 2 ^ Fd < p0 :=
        lt_of_le_of_ne (Nat.le_of_not_lt hinv) (Ne.symm hneB)
      have hdiv := newtonLoop_divisor_ne_zero Fd p0 hgt Fd
        (fxDivN Fd p0 (2 * 2 ^ Fd) + 2 ^ Fd) (hl0 _)
      simpa [sqrtN, h0, hinv] using hdiv

theorem sqrtM_divisors_ne_zero (Fs Fd W : Nat) (x : Int) :
    ∀ d ∈ (sqrtM Fs Fd W x).2.2, d ≠ 0 := by
  unfold sqrtM
  by_cases hx : x < 0
  · simp [hx]
  · rw [if_neg hx]
    exact sqrtN_divisors_ne_zero Fd W _

/-! ## log2 lemmas -/

theorem rsN_le (x : Nat) : rsN x ≤ (x + 1) / 2 := by
  unfold rsN
  omega

theorem halveLoop_lt (F : Nat) (fuel x acc : Nat) (hx : x < 2 * 2 ^ F) :
    halveLoop F fuel x acc = (x, acc, 0) := by
  cases fuel with
  | zero => rfl
  | succ n =>
    unfold halveLoop
    rw [if_neg (by omega)]

theorem halveLoop_bound (F : Nat) :
    ∀ fuel k x acc, x ≤ 2 ^ k * (2 * 2 ^ F) → k + 1 ≤ fuel →
      (halveLoop F fuel x acc).1 < 2 * 2 ^ F ∧
      (halveLoop F fuel x acc).2.2 ≤ k + 1 := by
  intro fuel
  induction fuel with
  | zero => intro k x acc _ hk; omega
  | succ n ih =>
    intro k x acc hx hk
    by_cases hx2 : 2 * 2 ^ F ≤ x
    · unfold halveLoop
      rw [if_pos hx2]
      cases k with
      | zero =>
        have hBpos : 0 < 2 ^ F := pow_pos (by norm_num) F
        have hxeq : x = 2 * 2 ^ F := by
          have := hx
          simp at this
          omega
        have hrs : rsN x = 2 ^ F := by
          subst hxeq
          unfold rsN
          omega
        rw [hrs, halveLoop_lt F n _ _ (by omega)]
        simp
      | succ k' =>
        have hle : rsN x ≤ 2 ^ k' * (2 * 2 ^ F) := by
          have h1 : rsN x ≤ (x + 1) / 2 := rsN_le x
          have h2 : x ≤ 2 * (2 ^ k' * (2 * 2 ^ F)) := by
            have : (2:Nat) ^ (k' + 1) = 2 * 2 ^ k' := by rw [pow_succ]; ring
            calc x ≤ 2 ^ (k' + 1) * (2 * 2 ^ F) := hx
              _ = 2 * (2 ^ k' * (2 * 2 ^ F)) := by rw [this]; ring
          omega
        obtain ⟨g1, g2⟩ := ih k' (rsN x) (acc + 1) hle (by omega)
        refine ⟨g1, ?_⟩
        show (halveLoop F n (rsN x) (acc + 1)).2.2 + 1 ≤ k' + 1 + 1
        omega
    · rw [halveLoop_lt F _ _ _ (by omega)]
      exact ⟨(by omega : x < 2 * 2 ^ F), Nat.zero_le _⟩

theorem log2innerM_frac_count (F W x : Nat) :
    (log2innerM F W x).2.2 = 0 ∨ (log2innerM F W x).2.2 = F := by
  by_cases hc : (halveLoop F W x 0).1 = 2 ^ F
  · left
    simp [log2innerM, hc]
  · right
    simp [log2innerM, hc]

theorem log2innerM_frac_count_eq (F W x : Nat)
    (h : (halveLoop F W x 0).1 ≠ 2 ^ F) : (log2innerM F W x).2.2 = F := by
  simp [log2innerM, h]

theorem log2M_nonpos (Fs Fd W : Nat) (x : Int) (hx : x ≤ 0) :
    log2M Fs Fd W x = (.err, 0, 0) := by
  unfold log2M
  rw [if_pos hx]

theorem log2M_lt_one (Fs Fd W : Nat) (x : Int) (hx : 0 < x)
    (hlt : x.toNat * 2 ^ (Fd - Fs) < 2 ^ Fd) :
    log2M Fs Fd W x =
      match checkedDivN Fd W (2 ^ Fd) (x.toNat * 2 ^ (Fd - Fs)) with
      | none => (.crash, 0, 0)
      | some inv =>
        (.ok (-(log2innerM Fd W inv).1), (log2innerM Fd W inv).2.1,
          (log2innerM Fd W inv).2.2) := by
  unfold log2M
  rw [if_neg (by omega), if_pos hlt]

theorem log2M_ge_one (Fs Fd W : Nat) (x : Int) (hx : 0 < x)
    (hge : ¬ (x.toNat * 2 ^ (Fd - Fs) < 2 ^ Fd)) :
    log2M Fs Fd W x =
      (.ok (log2innerM Fd W (x.toNat * 2 ^ (Fd - Fs))).1,
        (log2innerM Fd W (x.toNat * 2 ^ (Fd - Fs))).2.1,
        (log2innerM Fd W (x.toNat * 2 ^ (Fd - Fs))).2.2) := by
  unfold log2M
  rw [if_neg (by omega), if_neg hge]

/-! ## exp lemmas -/

theorem checkedDivN_some_lt (F W a b q : Nat) (h : checkedDivN F W a b = some q) :
    q < 2 ^ (W - 1) := by
  unfold checkedDivN at h
  split at h
  · cases h
  · simp only at h
    split at h
    · cases h
      assumption
    · cases h

theorem checkedAddN_some (W a b r : Nat) (h : checkedAddN W a b = some r) :
    r = a + b ∧ r < 2 ^ (W - 1) := by
  unfold checkedAddN at h
  split at h
  · cases h
    exact ⟨rfl, by assumption⟩
  · cases h

theorem expStep_some (Fd W xa i : Nat) (rt rt' : Nat × Nat)
    (h : expStep Fd W xa i (some rt) = some rt') :
    rt'.1 < 2 ^ (W - 1) ∧ rt'.2 < 2 ^ (W - 1) := by
  unfold expStep at h
  split at h
  · cases h
  · split at h
    · cases h
    · split at h
      · cases h
      · rename_i t2 hdv
        split at h
        · cases h
        · rename_i r2 hadd
          cases h
          obtain ⟨hr2, hb⟩ := checkedAddN_some _ _ _ _ hadd
          exact ⟨hb, checkedDivN_some_lt _ _ _ _ _ hdv⟩

theorem expFold_none (Fd W xa : Nat) (l : List Nat) (c : Nat) :
    l.foldl (expFoldStep Fd W xa) (none, c) = (none, c) := by
  induction l with
  | nil => rfl
  | cons i rest ih => simpa [expFoldStep] using ih

theorem expFold_count_le (Fd W xa : Nat) :
    ∀ (l : List Nat) (st : Option (Nat × Nat)) (c : Nat),
      (l.foldl (expFoldStep Fd W xa) (st, c)).2 ≤ c + l.length := by
  intro l
  induction l with
  | nil => intro st c; simp
  | cons i rest ih =>
    intro st c
    cases st with
    | none =>
      rw [List.foldl_cons]
      have : expFoldStep Fd W xa (none, c) i = (none, c) := rfl
      rw [this]
      have := ih none c
      simp only [List.length_cons]
      omega
    | some rt =>
      rw [List.foldl_cons]
      have : expFoldStep Fd W xa (some rt, c) i =
          (expStep Fd W xa i (some rt), c + 1) := rfl
      rw [this]
      have := ih (expStep Fd W xa i (some rt)) (c + 1)
      simp only [List.length_cons]
      omega

theorem expFold_some_count (Fd W xa : Nat) :
    ∀ (l : List Nat) (rt : Nat × Nat) (c : Nat) (v : Nat × Nat),
      (l.foldl (expFoldStep Fd W xa) (some rt, c)).1 = some v →
      (l.foldl (expFoldStep Fd W xa) (some rt, c)).2 = c + l.length := by
  intro l
  induction l with
  | nil => intro rt c v _; simp
  | cons i rest ih =>
    intro rt c v h
    rw [List.foldl_cons] at h ⊢
    have hstep : expFoldStep Fd W xa (some rt, c) i =
        (expStep Fd W xa i (some rt), c + 1) := rfl
    rw [hstep] at h ⊢
    cases hs : expStep Fd W xa i (some rt) with
    | none =>
      rw [hs, expFold_none] at h
      cases h
    | some rt1 =>
      rw [hs] at h
      have := ih rt1 (c + 1) v h
      simp only [List.length_cons]
      omega

theorem expFold_some_bound (Fd W xa : Nat) :
    ∀ (l : List Nat) (rt : Nat × Nat) (c : Nat) (v : Nat × Nat), l ≠ [] →
      (l.foldl (expFoldStep Fd W xa) (some rt, c)).1 = some v →
      v.1 < 2 ^ (W - 1) := by
  intro l
  induction l with
  | nil => intro rt c v hne _; exact absurd rfl hne
  | cons i rest ih =>
    intro rt c v _ h
    rw [List.foldl_cons] at h
    have hstep : expFoldStep Fd W xa (some rt, c) i =
        (expStep Fd W xa i (some rt), c + 1) := rfl
    rw [hstep] at h
    cases hs : expStep Fd W xa i (some rt) with
    | none =>
      rw [hs, expFold_none] at h
      cases h
    | some rt1 =>
      rw [hs] at h
      cases rest with
      | nil =>
        simp at h
        subst h
        exact (expStep_some Fd W xa i rt rt1 hs).1
      | cons j rest' =>
        exact ih rt1 (c + 1) v (by simp) h

theorem rustRange2_length (F : Nat) : (rustRange2 F).length = F - 2 := by
  simp [rustRange2]

theorem expTail_count (Fd W : Nat) (x : Int) (c : Nat)
    (st : Option (Nat × Nat)) : (expTail Fd W x c st).2 = c := by
  cases st with
  | none => rfl
  | some rt =>
    by_cases hneg : x < 0
    · simp only [expTail, if_pos hneg]
      cases checkedDivN Fd W (2 ^ Fd) rt.1 <;> rfl
    · simp only [expTail, if_neg hneg]

theorem expTail_ok (Fd W : Nat) (x : Int) (c : Nat) (st : Option (Nat × Nat))
    (v : Int) (h : (expTail Fd W x c st).1 = .ok v) :
    ∃ rt, st = some rt ∧
      (v = (rt.1 : Int) ∨ ∃ w, checkedDivN Fd W (2 ^ Fd) rt.1 = some w ∧
        v = (w : Int)) := by
  cases st with
  | none => cases h
  | some rt =>
    refine ⟨rt, rfl, ?_⟩
    by_cases hneg : x < 0
    · simp only [expTail, if_pos hneg] at h
      cases hcd : checkedDivN Fd W (2 ^ Fd) rt.1 with
      | none =>
        rw [hcd] at h
        cases h
      | some w =>
        rw [hcd] at h
        cases h
        exact Or.inr ⟨w, rfl, rfl⟩
    · simp only [expTail, if_neg hneg] at h
      cases h
      exact Or.inl rfl

theorem expM_count_le (Fs Fd W : Nat) (x : Int) : (expM Fs Fd W x).2 ≤ Fd - 2 := by
  by_cases h0 : x = 0
  · simp [expM, h0]
  · by_cases h1 : x = 2 ^ Fs
    · simp [expM, h0, h1]
    · have hcount := expFold_count_le Fd W (x.natAbs * 2 ^ (Fd - Fs)) (rustRange2 Fd)
        (some (x.natAbs * 2 ^ (Fd - Fs) + 2 ^ Fd, x.natAbs * 2 ^ (Fd - Fs))) 0
      rw [rustRange2_length] at hcount
      simp only [expM, if_neg h0, if_neg h1, expTail_count]
      omega

theorem expM_ok_count (Fs Fd W : Nat) (x : Int) (h0 : x ≠ 0) (h1 : x ≠ 2 ^ Fs)
    (v : Int) (hok : (expM Fs Fd W x).1 = .ok v) : (expM Fs Fd W x).2 = Fd - 2 := by
  simp only [expM, if_neg h0, if_neg h1, expTail_count] at hok ⊢
  obtain ⟨rt, hst, -⟩ := expTail_ok _ _ _ _ _ _ hok
  have hcnt := expFold_some_count Fd W (x.natAbs * 2 ^ (Fd - Fs)) (rustRange2 Fd)
    (x.natAbs * 2 ^ (Fd - Fs) + 2 ^ Fd, x.natAbs * 2 ^ (Fd - Fs)) 0 rt hst
  rw [rustRange2_length] at hcnt
  omega

theorem expM_ok_bound (Fs Fd W : Nat) (x : Int) (hFd : 23 ≤ Fd) (hW : Fd + 3 ≤ W)
    (v : Int) (hok : (expM Fs Fd W x).1 = .ok v) :
    0 ≤ v ∧ v < 2 ^ (W - 1) := by
  have hpow : (2:Nat) ^ Fd < 2 ^ (W - 1) :=
    Nat.pow_lt_pow_right (by norm_num) (by omega)
  by_cases h0 : x = 0
  · simp only [expM, if_pos h0] at hok
    cases hok
    exact ⟨Int.natCast_nonneg _, by exact_mod_cast hpow⟩
  · by_cases h1 : x = 2 ^ Fs
    · simp only [expM, if_neg h0, if_pos h1] at hok
      cases hok
      have hE : (eBits Fd : Nat) < 2 ^ (W - 1) := by
        unfold eBits
        calc 22802601 * 2 ^ (Fd - 23) < 2 ^ 25 * 2 ^ (Fd - 23) :=
              Nat.mul_lt_mul_of_lt_of_le (by norm_num) (le_refl _)
                (pow_pos (by norm_num) _)
          _ = 2 ^ (25 + (Fd - 23)) := by rw [pow_add]
          _ ≤ 2 ^ (W - 1) := Nat.pow_le_pow_right (by norm_num) (by omega)
      exact ⟨Int.natCast_nonneg _, by exact_mod_cast hE⟩
    · simp only [expM, if_neg h0, if_neg h1] at hok
      obtain ⟨rt, hst, hvv⟩ := expTail_ok _ _ _ _ _ _ hok
      have hne : rustRange2 Fd ≠ [] := by
        intro hnil
        have hlen : (rustRange2 Fd).length = Fd - 2 := rustRange2_length Fd
        rw [hnil] at hlen
        simp at hlen
        omega
      have hbd : rt.1 < 2 ^ (W - 1) :=
        expFold_some_bound Fd W (x.natAbs * 2 ^ (Fd - Fs)) (rustRange2 Fd)
          (x.natAbs * 2 ^ (Fd - Fs) + 2 ^ Fd, x.natAbs * 2 ^ (Fd - Fs)) 0 rt hne hst
      rcases hvv with hvv | ⟨w, hcd, hvv⟩
      · subst hvv
        exact ⟨Int.natCast_nonneg _, by exact_mod_cast hbd⟩
      · subst hvv
        exact ⟨Int.natCast_nonneg _,
          by exact_mod_cast checkedDivN_some_lt _ _ _ _ _ hcd⟩

/-! ## pow lemmas -/

theorem powM_eq_spec (Fs Fd W : Nat) (b e : Int) (hFd : 23 ≤ Fd)
    (hW : Fd + 3 ≤ W) :
    (powM Fs Fd W b e).1 = powSpec Fs Fd W b e ∧
    (powM Fs Fd W b e).2 ≠ some true := by
  by_cases h0 : e = 0
  · simp [powM, powSpec, h0]
  · by_cases h1 : e < 0
    · simp [powM, powSpec, h0, h1]
    · simp only [powM, powSpec, if_neg h0, if_neg h1]
      cases hln : lnM Fs Fd W b with
      | err => simp [hln]
      | crash => simp [hln]
      | ok l =>
        cases hmul : checkedMulZ Fd W l (e * 2 ^ (Fd - Fs)) with
        | none => simp [hln, hmul]
        | some r =>
          cases hexp : (expM Fd Fd W r).1 with
          | err => simp [hln, hmul, hexp]
          | crash => simp [hln, hmul, hexp]
          | ok v =>
            have hb := expM_ok_bound Fd Fd W r hFd hW v hexp
            have hin : inRangeS W v := by
              constructor
              · have h2 : (0:Int) ≤ 2 ^ (W - 1) := by positivity
                omega
              · exact hb.2
            simp [hln, hmul, hexp, hin]

theorem powSpec_err_cases (Fs Fd W : Nat) (b e : Int)
    (h : powSpec Fs Fd W b e = .err) :
    lnM Fs Fd W b = .err ∨
      ∃ l, lnM Fs Fd W b = .ok l ∧
        (checkedMulZ Fd W l (e * 2 ^ (Fd - Fs)) = none ∨
          ∃ r, checkedMulZ Fd W l (e * 2 ^ (Fd - Fs)) = some r ∧
            (expM Fd Fd W r).1 = .err) := by
  by_cases h0 : e = 0
  · simp [powSpec, h0] at h
  · by_cases h1 : e < 0
    · simp [powSpec, h0, h1] at h
    · cases hln : lnM Fs Fd W b with
      | err => exact Or.inl rfl
      | crash => simp [powSpec, h0, h1, hln] at h
      | ok l =>
        cases hmul : checkedMulZ Fd W l (e * 2 ^ (Fd - Fs)) with
        | none => exact Or.inr ⟨l, rfl, Or.inl hmul⟩
        | some r =>
          have hexp : (expM Fd Fd W r).1 = .err := by
            simpa [powSpec, h0, h1, hln, hmul] using h
          exact Or.inr ⟨l, rfl, Or.inr ⟨r, hmul, hexp⟩⟩

/-! ## CORDIC structural lemmas -/

theorem mem_enumFrom_lt {α : Type} (l : List α) :
    ∀ (n : Nat) (p : Nat × α), p ∈ l.enumFrom n → p.1 < n + l.length := by
  induction l with
  | nil => intro n p hp; cases hp
  | cons a t ih =>
    intro n p hp
    cases hp with
    | head => simp
    | tail _ hmem =>
      have := ih (n + 1) p hmem
      simp only [List.length_cons]
      omega

theorem cordicAux_trim (t : List Nat) :
    ∀ (n : Nat) (x y z : Int),
      cordicAux (t.enumFrom n) x y z =
        cordicAux ((t.take (24 - n)).enumFrom n) x y z := by
  induction t with
  | nil => intro n x y z; simp
  | cons a t' ih =>
    intro n x y z
    by_cases hn : 24 ≤ n
    · have h0 : 24 - n = 0 := by omega
      rw [h0]
      simp only [List.take_zero, List.enumFrom]
      unfold cordicAux
      simp only [if_pos hn]
    · have h1 : 24 - n = (24 - (n + 1)) + 1 := by omega
      rw [h1]
      simp only [List.take_succ_cons, List.enumFrom]
      unfold cordicAux
      simp only [if_neg hn]
      by_cases hz : z < 0
      · simp only [if_pos hz, ih (n + 1)]
      · simp only [if_neg hz, ih (n + 1)]

theorem cordicAux_run3 :
    ∀ (l : List (Nat × Nat)) (x y z : Int), (∀ p ∈ l, p.1 < 24) →
      cordicAux l x y z =
        (((run3 (l.map fun p => (lossyToI9F23 p.2, p.1)) x y z).1,
          (run3 (l.map fun p => (lossyToI9F23 p.2, p.1)) x y z).2.1), l.length) := by
  intro l
  induction l with
  | nil => intro x y z _; rfl
  | cons p rest ih =>
    intro x y z hlt
    obtain ⟨i, u⟩ := p
    have hi : i < 24 := hlt (i, u) (List.mem_cons_self _ _)
    unfold cordicAux
    rw [if_neg (by omega)]
    simp only [List.map_cons, run3, List.length_cons]
    by_cases hz : z < 0
    · rw [if_pos hz, if_pos hz,
        ih _ _ _ (fun q hq => hlt q (List.mem_cons_of_mem _ hq))]
    · rw [if_neg hz, if_neg hz,
        ih _ _ _ (fun q hq => hlt q (List.mem_cons_of_mem _ hq))]

theorem run3_append (l1 l2 : List (Int × Nat)) :
    ∀ (x y z : Int),
      run3 (l1 ++ l2) x y z =
        run3 l2 (run3 l1 x y z).1 (run3 l1 x y z).2.1 (run3 l1 x y z).2.2 := by
  induction l1 with
  | nil => intro x y z; rfl
  | cons p rest ih =>
    intro x y z
    obtain ⟨a, i⟩ := p
    simp only [List.cons_append, run3, List.append_eq]
    by_cases hz : z < 0
    · simp only [if_pos hz, ih]
    · simp only [if_neg hz, ih]

theorem run3_single (a : Int) (i : Nat) (x y z : Int) :
    run3 [(a, i)] x y z =
      if z < 0 then (x + sar y i, y - sar x i, z + a)
      else (x - sar y i, y + sar x i, z - a) := by
  simp only [run3]

theorem rangeFold_run3 :
    ∀ (n : Nat) (s : Int × Int × Int),
      (List.range n).foldl (fun s i => cordicSpecStep i s) s =
        run3 (pairsList n) s.1 s.2.1 s.2.2 := by
  intro n
  induction n with
  | zero => intro s; rfl
  | succ n ih =>
    intro s
    rw [List.range_succ, List.foldl_append]
    have hp : pairsList (n + 1) = pairsList n ++ [(angleAt n, n)] := by
      unfold pairsList
      rw [List.range_succ, List.map_append]
      rfl
    rw [hp, run3_append, ih]
    simp only [List.foldl_cons, List.foldl_nil, run3_single]
    unfold cordicSpecStep
    by_cases hz : (run3 (pairsList n) s.1 s.2.1 s.2.2).2.2 < 0
    · simp only [if_pos hz]
    · simp only [if_neg hz]

theorem pairs24_eq : ((ARCTAN_ANGLES.take 24).enum.map
    (fun p => (lossyToI9F23 p.2, p.1))) = pairs24 := by decide

theorem pairsList24_eq : pairsList 24 = pairs24 := by decide

theorem cordic_rotation_run3 (x y z : Int) :
    cordic_rotation x y z =
      ((run3 pairs24 x y z).1, (run3 pairs24 x y z).2.1) := by
  unfold cordic_rotation
  have henum : ARCTAN_ANGLES.enum = ARCTAN_ANGLES.enumFrom 0 := rfl
  rw [henum, cordicAux_trim ARCTAN_ANGLES 0 x y z]
  have htake : (ARCTAN_ANGLES.take (24 - 0)).enumFrom 0 =
      (ARCTAN_ANGLES.take 24).enum := rfl
  rw [htake, cordicAux_run3 _ x y z
    (fun p hp => by
      have := mem_enumFrom_lt _ 0 p hp
      simp only [List.length_take] at this
      omega), pairs24_eq]

theorem cordic_rotation_eq_spec (x y z : Int) :
    cordic_rotation x y z = cordicSpec x y z := by
  rw [cordic_rotation_run3]
  unfold cordicSpec
  rw [rangeFold_run3 24 (x, y, z), pairsList24_eq]

theorem cordicAux_count (x y z : Int) :
    (cordicAux ARCTAN_ANGLES.enum x y z).2 = 24 := by
  have henum : ARCTAN_ANGLES.enum = ARCTAN_ANGLES.enumFrom 0 := rfl
  rw [henum, cordicAux_trim ARCTAN_ANGLES 0 x y z]
  have htake : (ARCTAN_ANGLES.take (24 - 0)).enumFrom 0 =
      (ARCTAN_ANGLES.take 24).enum := rfl
  rw [htake, cordicAux_run3 _ x y z
    (fun p hp => by
      have := mem_enumFrom_lt _ 0 p hp
      simp only [List.length_take] at this
      omega)]
  rfl

theorem cordicAux_table_local (t : List Nat) (x y z : Int)
    (htake : t.take 24 = ARCTAN_ANGLES.take 24) :
    cordicAux t.enum x y z = cordicAux ARCTAN_ANGLES.enum x y z := by
  have h1 : t.enum = t.enumFrom 0 := rfl
  have h2 : ARCTAN_ANGLES.enum = ARCTAN_ANGLES.enumFrom 0 := rfl
  rw [h1, h2, cordicAux_trim t 0 x y z, cordicAux_trim ARCTAN_ANGLES 0 x y z,
    Nat.sub_zero, htake]

/-! ## Range reduction lemmas -/

theorem wrapDown_le : ∀ (fuel : Nat) (a : Int),
    a ≤ PI + (fuel : Int) * TWO_PI → (wrapDown fuel a).1 ≤ PI := by
  have hP : PI = 26353589 := rfl
  have hT : TWO_PI = 52707178 := rfl
  intro fuel
  induction fuel with
  | zero =>
    intro a h
    rw [hP, hT] at h
    show a ≤ PI
    rw [hP]
    push_cast at h
    omega
  | succ n ih =>
    intro a h
    rw [hP, hT] at h
    unfold wrapDown
    by_cases hgt : PI < a
    · simp only [if_pos hgt]
      show (wrapDown n (a - TWO_PI)).1 ≤ PI
      apply ih
      rw [hP, hT]
      push_cast at h ⊢
      omega
    · simp only [if_neg hgt]
      show a ≤ PI
      omega

theorem wrapDown_ge : ∀ (fuel : Nat) (a : Int),
    -PI ≤ (wrapDown fuel a).1 ∨ (wrapDown fuel a).1 = a := by
  have hP : PI = 26353589 := rfl
  have hT : TWO_PI = 52707178 := rfl
  intro fuel
  induction fuel with
  | zero => intro a; exact Or.inr rfl
  | succ n ih =>
    intro a
    unfold wrapDown
    by_cases hgt : PI < a
    · simp only [if_pos hgt]
      show -PI ≤ (wrapDown n (a - TWO_PI)).1 ∨ (wrapDown n (a - TWO_PI)).1 = a
      rcases ih (a - TWO_PI) with h | h
      · exact Or.inl h
      · left
        rw [h, hP]
        rw [hP] at hgt
        rw [hT]
        omega
    · simp only [if_neg hgt]
      exact Or.inr trivial

theorem wrapDown_count : ∀ (fuel : Nat) (a : Int) (k : Nat),
    a ≤ PI + (k : Int) * TWO_PI → (wrapDown fuel a).2 ≤ k := by
  have hP : PI = 26353589 := rfl
  have hT : TWO_PI = 52707178 := rfl
  intro fuel
  induction fuel with
  | zero => intro a k _; exact Nat.zero_le _
  | succ n ih =>
    intro a k h
    rw [hP, hT] at h
    unfold wrapDown
    by_cases hgt : PI < a
    · simp only [if_pos hgt]
      rw [hP] at hgt
      have hk : 1 ≤ k := by omega
      have hrec := ih (a - TWO_PI) (k - 1) (by rw [hP, hT]; omega)
      show (wrapDown n (a - TWO_PI)).2 + 1 ≤ k
      omega
    · simp only [if_neg hgt]
      exact Nat.zero_le _
  
theorem wrapDown_parity : ∀ (fuel : Nat) (a : Int),
    2 ∣ a → 2 ∣ (wrapDown fuel a).1 := by
  have hT : TWO_PI = 52707178 := rfl
  intro fuel
  induction fuel with
  | zero => intro a h; exact h
  | succ n ih =>
    intro a h
    unfold wrapDown
    by_cases hgt : PI < a
    · simp only [if_pos hgt]
      show 2 ∣ (wrapDown n (a - TWO_PI)).1
      apply ih
      rw [hT]
      omega
    · simp only [if_neg hgt]
      exact h

theorem wrapUp_ge : ∀ (fuel : Nat) (a : Int),
    -(PI + (fuel : Int) * TWO_PI) ≤ a → -PI ≤ (wrapUp fuel a).1 := by
  have hP : PI = 26353589 := rfl
  have hT : TWO_PI = 52707178 := rfl
  intro fuel
  induction fuel with
  | zero =>
    intro a h
    rw [hP, hT] at h
    show -PI ≤ a
    rw [hP]
    push_cast at h
    omega
  | succ n ih =>
    intro a h
    rw [hP, hT] at h
    unfold wrapUp
    by_cases hlt : a < -PI
    · simp only [if_pos hlt]
      show -PI ≤ (wrapUp n (a + TWO_PI)).1
      apply ih
      rw [hP, hT]
      push_cast at h ⊢
      omega
    · simp only [if_neg hlt]
      show -PI ≤ a
      omega

theorem wrapUp_le : ∀ (fuel : Nat) (a : Int),
    (wrapUp fuel a).1 ≤ PI ∨ (wrapUp fuel a).1 = a := by
  have hP : PI = 26353589 := rfl
  have hT : TWO_PI = 52707178 := rfl
  intro fuel
  induction fuel with
  | zero => intro a; exact Or.inr rfl
  | succ n ih =>
    intro a
    unfold wrapUp
    by_cases hlt : a < -PI
    · simp only [if_pos hlt]
      show (wrapUp n (a + TWO_PI)).1 ≤ PI ∨ (wrapUp n (a + TWO_PI)).1 = a
      rcases ih (a + TWO_PI) with h | h
      · exact Or.inl h
      · left
        rw [h, hP]
        rw [hP] at hlt
        rw [hT]
        omega
    · simp only [if_neg hlt]
      exact Or.inr trivial

theorem wrapUp_count : ∀ (fuel : Nat) (a : Int) (k : Nat),
    -(PI + (k : Int) * TWO_PI) ≤ a → (wrapUp fuel a).2 ≤ k := by
  have hP : PI = 26353589 := rfl
  have hT : TWO_PI = 52707178 := rfl
  intro fuel
  induction fuel with
  | zero => intro a k _; exact Nat.zero_le _
  | succ n ih =>
    intro a k h
    rw [hP, hT] at h
    unfold wrapUp
    by_cases hlt : a < -PI
    · simp only [if_pos hlt]
      rw [hP] at hlt
      have hk : 1 ≤ k := by omega
      have hrec := ih (a + TWO_PI) (k - 1) (by rw [hP, hT]; omega)
      show (wrapUp n (a + TWO_PI)).2 + 1 ≤ k
      omega
    · simp only [if_neg hlt]
      exact Nat.zero_le _

theorem wrapUp_parity : ∀ (fuel : Nat) (a : Int),
    2 ∣ a → 2 ∣ (wrapUp fuel a).1 := by
  have hT : TWO_PI = 52707178 := rfl
  intro fuel
  induction fuel with
  | zero => intro a h; exact h
  | succ n ih =>
    intro a h
    unfold wrapUp
    by_cases hlt : a < -PI
    · simp only [if_pos hlt]
      show 2 ∣ (wrapUp n (a + TWO_PI)).1
      apply ih
      rw [hT]
      omega
    · simp only [if_neg hlt]
      exact h

theorem reduceM_bounds (a : Int) (h1 : -(2 ^ 33) ≤ a) (h2 : a ≤ 2 ^ 33) :
    -FRAC_PI_2 ≤ reduceM a ∧ reduceM a ≤ FRAC_PI_2 := by
  have hP : PI = 26353589 := rfl
  have hT : TWO_PI = 52707178 := rfl
  have hH : FRAC_PI_2 = 13176794 := rfl
  have ha1le : (wrapDown sinFuel a).1 ≤ PI := by
    apply wrapDown_le
    show a ≤ PI + ((200 : Nat) : Int) * TWO_PI
    rw [hP, hT]
    push_cast
    omega
  have ha1ge : -(2 ^ 33) ≤ (wrapDown sinFuel a).1 := by
    rcases wrapDown_ge sinFuel a with h | h
    · rw [hP] at h
      omega
    · omega
  have ha2ge : -PI ≤ (wrapUp sinFuel (wrapDown sinFuel a).1).1 := by
    apply wrapUp_ge
    show -(PI + ((200 : Nat) : Int) * TWO_PI) ≤ _
    rw [hP, hT]
    push_cast
    omega
  have ha2le : (wrapUp sinFuel (wrapDown sinFuel a).1).1 ≤ PI := by
    rcases wrapUp_le sinFuel (wrapDown sinFuel a).1 with h | h
    · exact h
    · omega
  rw [hP] at ha2ge ha2le
  unfold reduceM
  set a2 := (wrapUp sinFuel (wrapDown sinFuel a).1).1 with ha2
  rw [hH]
  by_cases hm1 : FRAC_PI_2 < a2
  · rw [hH] at hm1
    simp only [hH, if_pos (show (13176794:Int) < a2 from hm1)]
    by_cases hm2 : (13176794:Int) - (a2 - 13176794) < -13176794
    · simp only [if_pos hm2]
      omega
    · simp only [if_neg hm2]
      omega
  · rw [hH] at hm1
    simp only [hH, if_neg (show ¬((13176794:Int) < a2) from hm1)]
    by_cases hm2 : a2 < -(13176794:Int)
    · simp only [if_pos hm2]
      omega
    · simp only [if_neg hm2]
      omega

theorem reduceM_parity (a : Int) (h : 2 ∣ a) : 2 ∣ reduceM a := by
  have hH : FRAC_PI_2 = 13176794 := rfl
  have hpar : 2 ∣ (wrapUp sinFuel (wrapDown sinFuel a).1).1 :=
    wrapUp_parity _ _ (wrapDown_parity _ _ h)
  unfold reduceM
  set a2 := (wrapUp sinFuel (wrapDown sinFuel a).1).1 with ha2
  by_cases hm1 : FRAC_PI_2 < a2
  · simp only [if_pos hm1]
    by_cases hm2 : FRAC_PI_2 - (a2 - FRAC_PI_2) < -FRAC_PI_2
    · simp only [if_pos hm2]
      rw [hH] at hm2
      omega
    · simp only [if_neg hm2]
      rw [hH] at hm2
      omega
  · simp only [if_neg hm1]
    by_cases hm2 : a2 < -FRAC_PI_2
    · simp only [if_pos hm2]
      rw [hH] at hm2
      omega
    · simp only [if_neg hm2]
      exact hpar

/-! ## CORDIC interval checker soundness -/

theorem sar_mono (v w : Int) (i : Nat) (h : v ≤ w) : sar v i ≤ sar w i := by
  unfold sar
  exact Int.ediv_le_ediv (by positivity) h

theorem sar_neg_lower (X : Int) (i : Nat) : -(sar X i) - 1 ≤ sar (-X) i := by
  unfold sar
  have hc : (0:Int) < 2 ^ i := by positivity
  rw [Int.le_ediv_iff_mul_le hc]
  have hlt := Int.lt_ediv_add_one_mul_self X hc
  nlinarith

theorem sar_bounds (v X : Int) (i : Nat) (h1 : -X ≤ v) (h2 : v ≤ X) :
    -(sar X i) - 1 ≤ sar v i ∧ sar v i ≤ sar X i := by
  constructor
  · exact le_trans (sar_neg_lower X i) (sar_mono _ _ _ h1)
  · exact sar_mono _ _ _ h2

theorem sar_nonneg (X : Int) (i : Nat) (h : 0 ≤ X) : 0 ≤ sar X i := by
  unfold sar
  exact Int.ediv_nonneg h (by positivity)

theorem run3_y_dev : ∀ (l : List (Int × Nat)) (x y z X Y : Int),
    -X ≤ x → x ≤ X → -Y ≤ y → y ≤ Y →
    (run3 l x y z).2.1 - y ≤ devBound l X Y ∧
      y - (run3 l x y z).2.1 ≤ devBound l X Y := by
  intro l
  induction l with
  | nil =>
    intro x y z X Y _ _ _ _
    simp [run3, devBound]
  | cons p rest ih =>
    intro x y z X Y hx1 hx2 hy1 hy2
    obtain ⟨a, i⟩ := p
    have hX : 0 ≤ X := by omega
    have hY : 0 ≤ Y := by omega
    obtain ⟨hsy1, hsy2⟩ := sar_bounds y Y i hy1 hy2
    obtain ⟨hsx1, hsx2⟩ := sar_bounds x X i hx1 hx2
    have hsYn : 0 ≤ sar Y i := sar_nonneg Y i hY
    have hsXn : 0 ≤ sar X i := sar_nonneg X i hX
    simp only [run3, devBound]
    by_cases hz : z < 0
    · simp only [if_pos hz]
      obtain ⟨g1, g2⟩ := ih (x + sar y i) (y - sar x i) (z + a)
        (X + (sar Y i + 1)) (Y + (sar X i + 1))
        (by omega) (by omega) (by omega) (by omega)
      constructor
      · omega
      · omega
    · simp only [if_neg hz]
      obtain ⟨g1, g2⟩ := ih (x - sar y i) (y + sar x i) (z - a)
        (X + (sar Y i + 1)) (Y + (sar X i + 1))
        (by omega) (by omega) (by omega) (by omega)
      constructor
      · omega
      · omega

theorem devBound_nonneg : ∀ (l : List (Int × Nat)) (X Y : Int),
    0 ≤ X → 0 ≤ Y → 0 ≤ devBound l X Y := by
  intro l
  induction l with
  | nil => intro X Y _ _; simp [devBound]
  | cons p rest ih =>
    intro X Y hX hY
    obtain ⟨a, i⟩ := p
    simp only [devBound]
    have h1 : 0 ≤ sar X i := sar_nonneg X i hX
    have h2 : 0 ≤ sar Y i := sar_nonneg Y i hY
    have := ih (X + (sar Y i + 1)) (Y + (sar X i + 1)) (by omega) (by omega)
    omega

theorem checkY_sound : ∀ (fuel : Nat) (l : List (Int × Nat))
    (x y zlo zhi off : Int),
    checkY fuel l x y zlo zhi off = true →
    ∀ z, zlo ≤ z → z ≤ zhi → 2 ∣ (z - off) → (run3 l x y z).2.1 ≠ yBad := by
  intro fuel
  induction fuel with
  | zero =>
    intro l x y zlo zhi off h
    cases h
  | succ n ih =>
    intro l x y zlo zhi off h z hlo hhi hpar
    by_cases hprune : yBad + devBound l |x| |y| < y ∨ y + devBound l |x| |y| < yBad
    · obtain ⟨g1, g2⟩ := run3_y_dev l x y z |x| |y|
        (neg_abs_le x) (le_abs_self x) (neg_abs_le y) (le_abs_self y)
      omega
    · cases l with
      | nil =>
        simp only [checkY] at h
        rw [if_neg hprune] at h
        show (x, y, z).2.1 ≠ yBad
        by_cases hy : y ≠ yBad
        · exact hy
        · rw [if_neg hy] at h
          by_cases hz : zhi < zlo
          · omega
          · rw [if_neg hz] at h
            rw [Bool.and_eq_true, decide_eq_true_eq, decide_eq_true_eq] at h
            obtain ⟨heq, hnd⟩ := h
            subst heq
            have : z = zlo := by omega
            subst this
            exact absurd hpar hnd
      | cons p rest =>
        obtain ⟨a, i⟩ := p
        simp only [checkY] at h
        rw [if_neg hprune] at h
        by_cases h1 : zhi < 0
        · rw [if_pos h1] at h
          have hz : z < 0 := by omega
          show (run3 ((a, i) :: rest) x y z).2.1 ≠ yBad
          simp only [run3, if_pos hz]
          exact ih rest (x + sar y i) (y - sar x i) (zlo + a) (zhi + a)
            (off + a) h (z + a) (by omega) (by omega) (by omega)
        · rw [if_neg h1] at h
          by_cases h2 : 0 ≤ zlo
          · rw [if_pos h2] at h
            have hz : ¬ (z < 0) := by omega
            show (run3 ((a, i) :: rest) x y z).2.1 ≠ yBad
            simp only [run3, if_neg hz]
            exact ih rest (x - sar y i) (y + sar x i) (zlo - a) (zhi - a)
              (off - a) h (z - a) (by omega) (by omega) (by omega)
          · rw [if_neg h2] at h
            rw [Bool.and_eq_true] at h
            by_cases hz : z < 0
            · exact ih _ x y zlo (-1) off h.1 z hlo (by omega) hpar
            · exact ih _ x y 0 zhi off h.2 z (by omega) hhi hpar

/-! ## tan divisor safety -/

theorem checkY_top : checkY 100 pairs24 X0 0 (-FRAC_PI_2) FRAC_PI_2 0 = true := by
  decide

theorem sinM_run3 (a : Int) : sinM a = (run3 pairs24 X0 0 (reduceM a)).2.1 := by
  unfold sinM
  rw [cordic_rotation_run3]

theorem sinM_ne_yBad (t : Int) (hpar : 2 ∣ t) (h1 : -(2 ^ 33) ≤ t)
    (h2 : t ≤ 2 ^ 33) : sinM t ≠ -8388608 := by
  obtain ⟨hb1, hb2⟩ := reduceM_bounds t h1 h2
  have hp : 2 ∣ reduceM t := reduceM_parity t hpar
  have hy := checkY_sound 100 pairs24 X0 0 (-FRAC_PI_2) FRAC_PI_2 0 checkY_top
    (reduceM t) hb1 hb2 (by simpa using hp)
  rw [sinM_run3]
  exact hy

theorem fxMulZ_two (a : Int) : fxMulZ 23 a TWO = 2 * a := by
  unfold fxMulZ TWO
  have h : a * 16777216 = (2 * a) * 2 ^ 23 := by ring
  rw [h, Int.mul_ediv_cancel _ (by positivity)]

theorem tanDenom_ne_zero (a : Int) (h1 : -(2 ^ 31) ≤ a) (h2 : a < 2 ^ 31) :
    tanDenom a ≠ 0 := by
  unfold tanDenom cosM
  rw [fxMulZ_two]
  have hpar : 2 ∣ (2 * a + FRAC_PI_2) := by
    have hH : FRAC_PI_2 = 13176794 := rfl
    omega
  have hb1 : -(2 ^ 33) ≤ 2 * a + FRAC_PI_2 := by
    have hH : FRAC_PI_2 = 13176794 := rfl
    omega
  have hb2 : 2 * a + FRAC_PI_2 ≤ 2 ^ 33 := by
    have hH : FRAC_PI_2 = 13176794 := rfl
    omega
  have := sinM_ne_yBad (2 * a + FRAC_PI_2) hpar hb1 hb2
  have hone : ONE = 8388608 := rfl
  omega

/-! ## Remaining count lemmas -/

theorem sqrtN_count (Fd W p0 : Nat) :
    (sqrtN Fd W p0).2.1 = 0 ∨ (sqrtN Fd W p0).2.1 = Fd := by
  by_cases h0 : p0 = 0 ∨ p0 = 2 ^ Fd
  · left
    simp [sqrtN, h0]
  · by_cases hinv : p0 < 2 ^ Fd
    · cases hcd : checkedDivN Fd W (2 ^ Fd) p0 with
      | none =>
        left
        simp [sqrtN, h0, hinv, hcd]
      | some p =>
        cases hcd2 : checkedDivN Fd W (2 ^ Fd)
            (newtonLoop Fd p (fxDivN Fd p (2 * 2 ^ Fd) + 2 ^ Fd) Fd).1 with
        | none =>
          right
          simp [sqrtN, h0, hinv, hcd, hcd2]
        | some v =>
          right
          simp [sqrtN, h0, hinv, hcd, hcd2]
    · right
      simp [sqrtN, h0, hinv]

theorem sqrtM_count_le (Fs Fd W : Nat) (x : Int) : (sqrtM Fs Fd W x).2.1 ≤ Fd := by
  unfold sqrtM
  by_cases hx : x < 0
  · simp [hx]
  · rw [if_neg hx]
    rcases sqrtN_count Fd W (x.toNat * 2 ^ (Fd - Fs)) with h | h <;> omega

/-! ## Claim theorems -/

/-- C1 (amended): `sqrt` returns the domain error for every negative operand
in every format pair; `sqrt(0) = 0` and `sqrt(1) = 1` are returned with zero
Newton iterations (the fast path); and `sqrt(4) = 2` exactly for every
destination format with at least one fractional bit (with exactly zero
fractional bits the result is 3, see the counterexample). -/
theorem c1_sqrt_domain_fastpath_four :
    (∀ Fs Fd W : Nat, ∀ x : Int, x < 0 → (sqrtM Fs Fd W x).1 = .err) ∧
    (∀ Fs Fd W : Nat, sqrtM Fs Fd W 0 = (.ok 0, 0, [])) ∧
    (∀ Fs Fd W : Nat, Fs ≤ Fd →
      sqrtM Fs Fd W ((2 ^ Fs : Nat) : Int) = (.ok ((2 ^ Fd : Nat) : Int), 0, [])) ∧
    (∀ Fs Fd W : Nat, 1 ≤ Fd → Fs ≤ Fd →
      (sqrtM Fs Fd W ((4 * 2 ^ Fs : Nat) : Int)).1 = .ok ((2 * 2 ^ Fd : Nat) : Int)) := by
  refine ⟨?_, ?_, ?_, ?_⟩
  · intro Fs Fd W x hx
    rw [sqrtM_neg Fs Fd W x hx]
  · intro Fs Fd W
    exact sqrtM_zero Fs Fd W
  · intro Fs Fd W hs
    exact sqrtM_one Fs Fd W hs
  · intro Fs Fd W hF hs
    rw [sqrtM_four Fs Fd W hF hs]

/-- C1 witness: the four parts at the crate's own `I9F23 → I9F23`
instantiation. -/
theorem c1_witness :
    (sqrtM 23 23 32 (-5)).1 = .err ∧
    sqrtM 23 23 32 0 = (.ok 0, 0, []) ∧
    sqrtM 23 23 32 ((2 ^ 23 : Nat) : Int) = (.ok ((2 ^ 23 : Nat) : Int), 0, []) ∧
    (sqrtM 23 23 32 ((4 * 2 ^ 23 : Nat) : Int)).1 = .ok ((2 * 2 ^ 23 : Nat) : Int) :=
  ⟨c1_sqrt_domain_fastpath_four.1 23 23 32 (-5) (by decide),
   c1_sqrt_domain_fastpath_four.2.1 23 23 32,
   c1_sqrt_domain_fastpath_four.2.2.1 23 23 32 (by decide),
   c1_sqrt_domain_fastpath_four.2.2.2 23 23 32 (by decide) (by decide)⟩

/-- C1 counterexample: with a destination format of zero fractional bits
(e.g. `I32F0`, which the generic signature admits with `S = D`), `sqrt(4)`
returns 3, not 2 — the Newton loop runs zero times and the initial guess
`4/2 + 1 = 3` is returned unrefined. -/
theorem c1_counterexample :
    (sqrtM 0 0 32 4).1 = .ok 3 ∧ (sqrtM 0 0 32 4).1 ≠ .ok ((2 * 2 ^ 0 : Nat) : Int) := by
  decide

/-- C2: the division `operand / l` inside `sqrt`'s Newton loop never has a
zero divisor, on any input in any format: the iterate stays at or above one.
The claim ("if that division were undefined, `sqrt` returns `Err`") therefore
holds vacuously — no input reaches an undefined division in the loop. -/
theorem c2_newton_divisor_never_zero (Fs Fd W : Nat) (x : Int) :
    ∀ d ∈ (sqrtM Fs Fd W x).2.2, d ≠ 0 :=
  sqrtM_divisors_ne_zero Fs Fd W x

/-- C2 witness: the first Newton divisor of `sqrt(4)` at `I9F23` is the
initial guess `3`, and it is nonzero. -/
theorem c2_witness :
    (25165824 : Nat) ∈ (sqrtM 23 23 32 ((4 * 2 ^ 23 : Nat) : Int)).2.2 ∧
    (25165824 : Nat) ≠ 0 :=
  ⟨by decide,
   c2_newton_divisor_never_zero 23 23 32 ((4 * 2 ^ 23 : Nat) : Int) 25165824
     (by decide)⟩

/-- C3: the code, not the claim, is at fault.  `log2` does return the domain
error for non-positive inputs, but for `0 < x < 1` the reciprocal is taken
with `checked_div(..).unwrap()`: at the failing input `x = 2⁻²³`
(`I9F23::from_bits(1)`, with `S = D = I9F23`) the reciprocal `2²³` overflows
the 32-bit destination, `checked_div` returns `None`, and the call crashes
instead of returning `Err` as the spec requires. -/
theorem c3_log2_unwrap_crash :
    (log2M 23 23 32 1).1 = .crash ∧
    checkedDivN 23 32 (2 ^ 23) 1 = none ∧
    (log2M 23 23 32 0).1 = .err ∧
    (log2M 23 23 32 (-1)).1 = .err := by
  decide

/-- C4 counterexample: `exp`'s Taylor loop (`for i in 2..F`) runs `F - 2`
iterations, not `F`: at the destination `I9F23` (`F = 23`) the loop on the
non-fast-path input 2 runs 21 times. -/
theorem c4_counterexample :
    (expM 23 23 32 ((2 * 2 ^ 23 : Nat) : Int)).2 = 21 ∧
    (expM 23 23 32 ((2 * 2 ^ 23 : Nat) : Int)).2 ≠ 23 := by
  decide

/-- C4 (amended): when the refinement loop is reached, `sqrt`'s Newton loop
and `log2`'s fractional-bit loop run exactly `F` iterations (`F` = the
destination's fractional width), while `exp`'s Taylor loop runs exactly
`F - 2` iterations (its range is `2..F`) whenever it completes without a
checked-arithmetic failure. -/
theorem c4_iteration_counts :
    (∀ Fd W p0 : Nat, 2 ^ Fd < p0 → (sqrtN Fd W p0).2.1 = Fd) ∧
    (∀ Fd W p0 : Nat, (sqrtN Fd W p0).2.1 = 0 ∨ (sqrtN Fd W p0).2.1 = Fd) ∧
    (∀ F W x : Nat, (halveLoop F W x 0).1 ≠ 2 ^ F → (log2innerM F W x).2.2 = F) ∧
    (∀ F W x : Nat, (log2innerM F W x).2.2 = 0 ∨ (log2innerM F W x).2.2 = F) ∧
    (∀ Fs Fd W : Nat, ∀ x : Int, x ≠ 0 → x ≠ 2 ^ Fs → ∀ v : Int,
      (expM Fs Fd W x).1 = .ok v → (expM Fs Fd W x).2 = Fd - 2) := by
  refine ⟨?_, ?_, ?_, ?_, ?_⟩
  · intro Fd W p0 h1
    rw [sqrtN_direct Fd W p0 h1]
  · intro Fd W p0
    exact sqrtN_count Fd W p0
  · intro F W x h
    exact log2innerM_frac_count_eq F W x h
  · intro F W x
    exact log2innerM_frac_count F W x
  · intro Fs Fd W x h0 h1 v hok
    exact expM_ok_count Fs Fd W x h0 h1 v hok

/-- C4 witness: the counts at concrete formats — `sqrt(4)` at `F = 23` runs
23 Newton iterations, `log2(3)` at `F = 23` runs 23 refinement iterations,
and `exp(2)` at `F = 23` enters its loop 21 times. -/
theorem c4_witness :
    (sqrtN 23 32 (4 * 2 ^ 23)).2.1 = 23 ∧
    (log2innerM 23 32 (3 * 2 ^ 23)).2.2 = 23 ∧
    (expM 23 23 32 ((2 * 2 ^ 23 : Nat) : Int)).2 = 23 - 2 :=
  ⟨c4_iteration_counts.1 23 32 (4 * 2 ^ 23) (by decide),
   c4_iteration_counts.2.2.1 23 32 (3 * 2 ^ 23) (by decide),
   c4_iteration_counts.2.2.2.2 23 23 32 ((2 * 2 ^ 23 : Nat) : Int) (by decide)
     (by decide) 61983890 (by decide)⟩

/-- C5: `pow` follows its stated contract — a zero exponent returns the base
unchanged (converted to the destination, not 1), a negative exponent returns
0, and otherwise the result is `exp(exponent * ln(base))` with the domain
error propagated exactly from `ln`, the intermediate checked multiplication,
or `exp` (the width hypotheses are those of the crate's own instantiations,
`D` at least as wide as `I9F23`). -/
theorem c5_pow_contract (Fs Fd W : Nat) (b e : Int) (hFd : 23 ≤ Fd)
    (hW : Fd + 3 ≤ W) :
    (powM Fs Fd W b e).1 = powSpec Fs Fd W b e :=
  (powM_eq_spec Fs Fd W b e hFd hW).1

/-- C5 witness: `pow(2, 2)` at `I9F23` agrees with the contract. -/
theorem c5_witness : (powM 23 23 32 TWO TWO).1 = powSpec 23 23 32 TWO TWO :=
  c5_pow_contract 23 23 32 TWO TWO (by decide) (by decide)

/-- C6: `sin`, `cos` and `tan` are total over the representable `I9F23`
angles (they are plain functions in this embedding, with statically fuelled
reduction loops whose fuel the termination theorem justifies), and in
particular the divisor `ONE + cos(2·angle)` of `tan`'s single division is
never zero, so `tan` never divides by zero. -/
theorem c6_tan_divisor_never_zero (a : Int) (h1 : -(2 ^ 31) ≤ a)
    (h2 : a < 2 ^ 31) :
    tanDenom a ≠ 0 ∧
      tanM a = fxDivZ 23 (sinM (fxMulZ 23 a TWO)) (tanDenom a) :=
  ⟨tanDenom_ne_zero a h1 h2, rfl⟩

/-- C6 witness: at the angle 0 the divisor is nonzero. -/
theorem c6_witness :
    tanDenom 0 ≠ 0 ∧ tanM 0 = fxDivZ 23 (sinM (fxMulZ 23 0 TWO)) (tanDenom 0) :=
  c6_tan_divisor_never_zero 0 (by decide) (by decide)

/-- C7: the CORDIC rotation equals the spec's recurrence run for exactly
24 iterations (`i = 0..23`); the loop-body count is exactly 24; the result
never consults table entries 24–31 (any table agreeing on the first 24
entries gives the identical run, count included); and `sin` seeds the
rotation with `x = 5094005` (the reciprocal-gain constant
`0x004DBA75`, not one), `y = 0`, `z` = the reduced angle, returning the
final `y` component. -/
theorem c7_cordic_structure :
    (∀ x y z : Int, cordic_rotation x y z = cordicSpec x y z) ∧
    (∀ x y z : Int, (cordicAux ARCTAN_ANGLES.enum x y z).2 = 24) ∧
    (∀ (t : List Nat) (x y z : Int), t.take 24 = ARCTAN_ANGLES.take 24 →
      cordicAux t.enum x y z = cordicAux ARCTAN_ANGLES.enum x y z) ∧
    (∀ a : Int, sinM a = (cordic_rotation X0 0 (reduceM a)).2) ∧
    X0 = 5094005 ∧ X0 ≠ ONE := by
  refine ⟨?_, ?_, ?_, ?_, rfl, by decide⟩
  · intro x y z
    exact cordic_rotation_eq_spec x y z
  · intro x y z
    exact cordicAux_count x y z
  · intro t x y z ht
    exact cordicAux_table_local t x y z ht
  · intro a
    rfl

/-- C7 witness: a table with the first 24 entries of `ARCTAN_ANGLES` and the
last 8 replaced by zeros produces the identical rotation. -/
theorem c7_witness :
    cordicAux ((ARCTAN_ANGLES.take 24) ++ [0, 0, 0, 0, 0, 0, 0, 0]).enum X0 0 0 =
      cordicAux ARCTAN_ANGLES.enum X0 0 0 :=
  c7_cordic_structure.2.2.1 ((ARCTAN_ANGLES.take 24) ++ [0, 0, 0, 0, 0, 0, 0, 0])
    X0 0 0 (by decide)

/-- C8 counterexample: `sin` is not an odd function on the representable
angles: at the angle 0 the CORDIC kernel returns the raw value 4
(not 0), so `sin(-0) = 4 ≠ -4 = -sin(0)`. -/
theorem c8_counterexample : sinM (-(0:Int)) ≠ -sinM 0 := by decide

/-- C8 (amended): `cos(angle) = sin(angle + π/2)` holds exactly for every
angle; the oddness identity `sin(-x) = -sin(x)` holds exactly at the
representative angles 1 and 2, and only up to a few raw-bit units at π/2 and
π/4 (defects +3 and −4 respectively); it fails in general (see the
counterexample at 0). -/
theorem c8_sin_symmetry :
    (∀ a : Int, cosM a = sinM (a + FRAC_PI_2)) ∧
    sinM (-TWO) = -sinM TWO ∧
    sinM (-ONE) = -sinM ONE ∧
    sinM (-FRAC_PI_2) + sinM FRAC_PI_2 = 3 ∧
    sinM (-FRAC_PI_4) + sinM FRAC_PI_4 = -4 := by
  refine ⟨fun a => rfl, ?_, ?_, ?_, ?_⟩ <;> decide

/-- C9: every loop in the embedding has a static bound: `sin`'s two
wraparound loops run at most 164 iterations on any angle that any public
entry point can feed them; `sqrt`'s Newton loop runs at most `F` iterations;
`log2`'s halving loop finishes within `k + 1` iterations whenever its
argument is below `2^k·2`, and its refinement loop within `F`; `exp`'s
Taylor loop within `F - 2`; and the CORDIC rotation runs exactly 24. -/
theorem c9_termination_static_bounds :
    (∀ a : Int, -(2 ^ 33) ≤ a → a ≤ 2 ^ 33 →
      (wrapDown sinFuel a).2 ≤ 164 ∧
      (wrapUp sinFuel (wrapDown sinFuel a).1).2 ≤ 164) ∧
    (∀ Fs Fd W : Nat, ∀ x : Int, (sqrtM Fs Fd W x).2.1 ≤ Fd) ∧
    (∀ F W k x acc : Nat, x ≤ 2 ^ k * (2 * 2 ^ F) → k + 1 ≤ W →
      (halveLoop F W x acc).2.2 ≤ k + 1) ∧
    (∀ F W x : Nat, (log2innerM F W x).2.2 ≤ F) ∧
    (∀ Fs Fd W : Nat, ∀ x : Int, (expM Fs Fd W x).2 ≤ Fd - 2) ∧
    (∀ x y z : Int, (cordicAux ARCTAN_ANGLES.enum x y z).2 = 24) := by
  have hP : PI = 26353589 := rfl
  have hT : TWO_PI = 52707178 := rfl
  refine ⟨?_, ?_, ?_, ?_, ?_, ?_⟩
  · intro a h1 h2
    constructor
    · apply wrapDown_count
      show a ≤ PI + ((164 : Nat) : Int) * TWO_PI
      rw [hP, hT]
      push_cast
      omega
    · apply wrapUp_count
      show -(PI + ((164 : Nat) : Int) * TWO_PI) ≤ _
      rcases wrapDown_ge sinFuel a with h | h
      · rw [hP, hT]
        rw [hP] at h
        push_cast
        omega
      · rw [hP, hT, h]
        push_cast
        omega
  · intro Fs Fd W x
    exact sqrtM_count_le Fs Fd W x
  · intro F W k x acc hx hk
    exact (halveLoop_bound F W k x acc hx hk).2
  · intro F W x
    rcases log2innerM_frac_count F W x with h | h <;> omega
  · intro Fs Fd W x
    exact expM_count_le Fs Fd W x
  · intro x y z
    exact cordicAux_count x y z

/-- C9 witness: the bounds at concrete inputs. -/
theorem c9_witness :
    ((wrapDown sinFuel (2 ^ 32)).2 ≤ 164 ∧
      (wrapUp sinFuel (wrapDown sinFuel (2 ^ 32)).1).2 ≤ 164) ∧
    (sqrtM 23 23 32 ((4 * 2 ^ 23 : Nat) : Int)).2.1 ≤ 23 ∧
    (halveLoop 23 32 (3 * 2 ^ 23) 0).2.2 ≤ 1 + 1 ∧
    (log2innerM 23 32 (3 * 2 ^ 23)).2.2 ≤ 23 ∧
    (expM 23 23 32 ((2 * 2 ^ 23 : Nat) : Int)).2 ≤ 23 - 2 ∧
    (cordicAux ARCTAN_ANGLES.enum X0 0 0).2 = 24 :=
  ⟨c9_termination_static_bounds.1 (2 ^ 32) (by decide) (by decide),
   c9_termination_static_bounds.2.1 23 23 32 _,
   c9_termination_static_bounds.2.2.1 23 32 1 (3 * 2 ^ 23) 0 (by decide)
     (by decide),
   c9_termination_static_bounds.2.2.2.1 23 32 (3 * 2 ^ 23),
   c9_termination_static_bounds.2.2.2.2.1 23 23 32 _,
   c9_termination_static_bounds.2.2.2.2.2 X0 0 0⟩

/-- C10: `pow`'s final `overflowing_to_num::<D>` narrows a `D` value to `D`
itself, so its overflow flag is never raised, and a `pow` error can only
originate in `ln`, in the checked exponent multiplication, or in `exp`. -/
theorem c10_pow_final_conversion (Fs Fd W : Nat) (b e : Int) (hFd : 23 ≤ Fd)
    (hW : Fd + 3 ≤ W) :
    (powM Fs Fd W b e).2 ≠ some true ∧
    ((powM Fs Fd W b e).1 = .err →
      lnM Fs Fd W b = .err ∨
        ∃ l, lnM Fs Fd W b = .ok l ∧
          (checkedMulZ Fd W l (e * 2 ^ (Fd - Fs)) = none ∨
            ∃ r, checkedMulZ Fd W l (e * 2 ^ (Fd - Fs)) = some r ∧
              (expM Fd Fd W r).1 = .err)) := by
  obtain ⟨heq, hflag⟩ := powM_eq_spec Fs Fd W b e hFd hW
  refine ⟨hflag, ?_⟩
  intro herr
  rw [heq] at herr
  exact powSpec_err_cases Fs Fd W b e herr

/-- C10 witness: at `pow(2, 2)` in `I9F23` the final conversion's flag is
not raised. -/
theorem c10_witness :
    (powM 23 23 32 TWO TWO).2 ≠ some true ∧
    ((powM 23 23 32 TWO TWO).1 = .err →
      lnM 23 23 32 TWO = .err ∨
        ∃ l, lnM 23 23 32 TWO = .ok l ∧
          (checkedMulZ 23 32 l (TWO * 2 ^ (23 - 23)) = none ∨
            ∃ r, checkedMulZ 23 32 l (TWO * 2 ^ (23 - 23)) = some r ∧
              (expM 23 23 32 r).1 = .err)) :=
  c10_pow_final_conversion 23 23 32 TWO TWO (by decide) (by decide)

end STF
